import Mathlib

/-!
# Verification of the life-nextcloud-sync reconciliation engine

A shallow embedding of `src/index.js` (the Electron/WebDAV sync client).
The filesystem trees (local and remote) are modelled as flat finite maps
from forward-slash relative paths to entries, together with a set of
directory paths; the recursive directory walks of the source, which prune
any subtree whose name contains the conflict marker, are modelled as
enumerations of the flat map filtered by the conflict-marker test on the
full relative path (equivalent, since the marker token contains no slash,
so a component containing the marker iff the joined path contains it).
Timestamps are integers (JavaScript epoch milliseconds); content is opaque
data.  Fallible JS operations (`fs.stat`, `client.stat`) become `Option`;
the try/catch fallbacks of the source become the corresponding `match`
branches.
-/

namespace LifeSync

/-- `MAX_CONSECUTIVE_ERRORS = 3` (src/index.js:26). -/
def MAX_CONSECUTIVE_ERRORS : Nat := 3

/-- `BACKOFF_MULTIPLIER = 2` (src/index.js:27). -/
def BACKOFF_MULTIPLIER : Nat := 2

/-- `TIMESTAMP_TOLERANCE = 5000` milliseconds (src/index.js:28). -/
def TIMESTAMP_TOLERANCE : Int := 5000

/-! ## String utilities: JavaScript `String.prototype.includes` -/

/-- Does the character list start with the pattern? -/
def listStartsWith : List Char → List Char → Bool
  | _, [] => true
  | [], _ :: _ => false
  | a :: as, b :: bs => a == b && listStartsWith as bs

/-- Does the character list contain the pattern as a contiguous run? -/
def listContainsSub : List Char → List Char → Bool
  | [], pat => pat.isEmpty
  | a :: rest, pat => listStartsWith (a :: rest) pat || listContainsSub rest pat

/-- JS `s.includes(pat)`. -/
def strIncludes (s pat : String) : Bool := listContainsSub s.data pat.data

/-- The reserved conflict-marker token `'.conflict-'` used throughout the source. -/
def conflictMarker : String := ".conflict-"

/-- JS `rel.includes('.conflict-')` — the conflict-marker test. -/
def hasConflictMarker (p : String) : Bool := strIncludes p conflictMarker

/-! ## Path utilities (POSIX relative paths, `/`-separated) -/

/-- Split a character list on a separator character. -/
def splitCharsOn (sep : Char) : List Char → List (List Char)
  | [] => [[]]
  | c :: rest =>
      let r := splitCharsOn sep rest
      if c == sep then [] :: r
      else
        match r with
        | [] => [[c]]
        | seg :: segs => (c :: seg) :: segs

/-- Split a relative path into components (JS `p.split('/')`). -/
def splitPath (p : String) : List String :=
  (splitCharsOn '/' p.data).map (fun cs => String.mk cs)

/-- Join components back into a path. -/
def joinComps : List String → String
  | [] => ""
  | c :: rest => rest.foldl (fun a b => a ++ "/" ++ b) c

/-- JS `path.posix.dirname` on relative paths: `""` means the sync root. -/
def parentDir (p : String) : String := joinComps (splitPath p).dropLast

/-- Number of path segments (used by the deepest-first sort, src/index.js:446). -/
def pathDepth (p : String) : Nat := (splitPath p).length

/-- All non-empty prefixes of a component list, shallowest first, as joined
paths.  Models the accumulator loop of `ensureRemoteDir` (src/index.js:488-494). -/
def pathPrefixes (cs : List String) : List String :=
  (List.range cs.length).map (fun i => joinComps (cs.take (i + 1)))

/-- The ancestor directories of a path: the directory chain its parent
consists of ([] for a top-level path, matching the `''`/`'/'`/`'.'` guard
of `ensureRemoteDir`). -/
def ancestorDirs (p : String) : List String :=
  if parentDir p == "" || parentDir p == "/" || parentDir p == "." then []
  else pathPrefixes (splitPath (parentDir p))

/-! ## Data model -/

/-- File content.  Ordinary files hold opaque bytes; the durable ledger file
holds a JSON document, which is either a well-formed document with a
`knownFiles` mapping, a parseable document lacking a usable `knownFiles`
field, or unparseable text (src/index.js:569-575 distinguishes exactly
these cases). -/
inductive FileData where
  | bytes (n : Nat)
  | ledgerDoc (known : List String)
  | jsonNoLedger
  | badJson
deriving DecidableEq, Repr

/-- A file entry: modify time (epoch ms) and content. -/
structure Entry where
  mtime : Int
  data : FileData
deriving DecidableEq, Repr

/-- A filesystem tree, flattened: `rootExists` models the existence of the
tree's root directory itself (the local sync root can be removed by
`pruneEmptyDirTree`, see src/index.js:513-523); `files` maps relative
paths to entries; `dirs` is the set of relative directory paths (root
excluded). -/
structure FS where
  rootExists : Bool
  files : List (String × Entry)
  dirs : List String
deriving DecidableEq, Repr

/-- `fs.stat` / `client.stat` on a file path: `none` models the thrown
not-found error. -/
def FS.statFile (fs : FS) (p : String) : Option Entry :=
  (fs.files.find? (fun q => q.1 == p)).map (fun q => q.2)

/-- Write (create or overwrite) a file. -/
def FS.writeFile (fs : FS) (p : String) (e : Entry) : FS :=
  { fs with files := (fs.files.filter (fun q => q.1 != p)) ++ [(p, e)] }

/-- `fs.utimes`: set the modify time of an existing file. -/
def FS.setMtime (fs : FS) (p : String) (t : Int) : FS :=
  { fs with files := fs.files.map (fun q => if q.1 == p then (q.1, { q.2 with mtime := t }) else q) }

/-- `fs.unlink` / `client.deleteFile`: remove a file (no-op when absent,
modelling the caught not-found error). -/
def FS.unlink (fs : FS) (p : String) : FS :=
  { fs with files := fs.files.filter (fun q => q.1 != p) }

/-- Does the directory path exist? -/
def FS.hasDir (fs : FS) (d : String) : Bool := fs.dirs.contains d

/-- `fs.mkdir(..., {recursive:true})`: create a directory and its ancestors
(also the root). -/
def FS.mkdirp (fs : FS) (d : String) : FS :=
  if d == "" then { fs with rootExists := true }
  else
    { fs with
      rootExists := true
      dirs := (pathPrefixes (splitPath d)).foldl
        (fun ds q => if ds.contains q then ds else ds ++ [q]) fs.dirs }

/-- Remove a single directory entry. -/
def FS.removeDirEntry (fs : FS) (d : String) : FS :=
  { fs with dirs := fs.dirs.filter (fun s => s != d) }

/-- `readdir(d)` is non-empty: some file or directory has `d` as its parent
(`d = ""` is the root). -/
def FS.dirHasEntries (fs : FS) (d : String) : Bool :=
  fs.files.any (fun q => parentDir q.1 == d) || fs.dirs.any (fun s => parentDir s == d)

/-- The in-memory sync state: `state.knownFiles`, the baseline ledger
(a JS object used as a set of relative paths). -/
structure SyncState where
  knownFiles : List String
deriving DecidableEq, Repr

/-- The relative path of the durable ledger, `'.sync-state.json'`
(src/index.js:12).  Note it lives inside the local sync root. -/
def stateFileName : String := ".sync-state.json"

/-- `loadSyncState` (src/index.js:569-575): read and parse the ledger file;
any failure — missing file, unparseable JSON, or a parsed document whose
`knownFiles` is not a usable object — yields the empty ledger.  Total by
construction: it never raises. -/
def loadSyncState (fs : FS) : SyncState :=
  match fs.statFile stateFileName with
  | none => ⟨[]⟩
  | some e =>
      match e.data with
      | .ledgerDoc ks => ⟨ks⟩
      | _ => ⟨[]⟩

/-- `saveSyncState` (src/index.js:577-582): `mkdir -p` the parent of the
state file (recreating the local root if needed) then write the full
ledger document; `t` is the write time the file receives. -/
def saveSyncState (fs : FS) (known : List String) (t : Int) : FS :=
  FS.writeFile { fs with rootExists := true } stateFileName ⟨t, .ledgerDoc known⟩

/-- The world: the local tree and the remote tree. -/
structure World where
  localFS : FS
  remote : FS
deriving DecidableEq, Repr

/-! ## Conflict artifact naming -/

/-- The candidate artifact name at disambiguator `i` (src/index.js:556-557).
The source splices the marker between basename and extension; the
position within the name is immaterial to every property proved here, so
the marker suffix is appended to the whole relative path. -/
def conflictCandidateName (p suffix ts : String) (i : Nat) : String :=
  if i == 0 then p ++ conflictMarker ++ suffix ++ "-" ++ ts
  else p ++ conflictMarker ++ suffix ++ "-" ++ ts ++ "-" ++ toString i

/-- The `while (fssync.existsSync(newPath))` uniqueness loop of
`generateConflictName`, with fuel bounding the search (the loop terminates
because only finitely many files exist). -/
def genConflictAux (fs : FS) (p suffix ts : String) : Nat → Nat → String
  | 0, i => conflictCandidateName p suffix ts i
  | fuel + 1, i =>
      let cand := conflictCandidateName p suffix ts i
      if (fs.statFile cand).isSome then genConflictAux fs p suffix ts fuel (i + 1)
      else cand

/-- `generateConflictName` (src/index.js:550-559): a fresh local artifact
name carrying the marker, an origin tag and a timestamp. -/
def generateConflictName (fs : FS) (p suffix ts : String) : String :=
  genConflictAux fs p suffix ts (fs.files.length + 1) 0

/-- `generateRemoteConflictName` (src/index.js:561-567): the remote-side
artifact name; no uniqueness loop in the source. -/
def generateRemoteConflictName (p ts : String) : String :=
  p ++ conflictMarker ++ "remote-" ++ ts

/-! ## Deletion reconciler -/

/-- String order used only to build the stable fingerprint. -/
def charListLe : List Char → List Char → Bool
  | [], _ => true
  | _ :: _, [] => false
  | a :: as, b :: bs =>
      if a.val < b.val then true
      else if b.val < a.val then false
      else charListLe as bs

/-- Insertion step of the fingerprint sort. -/
def insertStr (x : String) : List String → List String
  | [] => [x]
  | y :: ys => if charListLe x.data y.data then x :: y :: ys else y :: insertStr x ys

/-- `[...].sort()` on strings (used only in the fingerprint). -/
def sortStr : List String → List String
  | [] => []
  | x :: xs => insertStr x (sortStr xs)

/-- `deletionFingerprint` (src/index.js:500-504): the JS
`JSON.stringify({f: files.sort(), d: dirs.sort()})` is injective on the
sorted lists, so the pair of sorted lists is an equivalent fingerprint. -/
def deletionFingerprint (files dirs : List String) : List String × List String :=
  (sortStr files, sortStr dirs)

/-- Insertion step of the deepest-first sort. -/
def insertDepthDesc (x : String) : List String → List String
  | [] => [x]
  | y :: ys => if pathDepth y ≤ pathDepth x then x :: y :: ys else y :: insertDepthDesc x ys

/-- `toDeleteLocalDirs.sort((a,b) => b.split('/').length - a.split('/').length)`
(src/index.js:446): order candidate directories deepest first. -/
def sortByDepthDesc : List String → List String
  | [] => []
  | x :: xs => insertDepthDesc x (sortByDepthDesc xs)

/-- `collectRemoteTree` (src/index.js:377-389): snapshot of remote files and
directories.  The source walk prunes any entry whose relative path
contains the marker; on the flat map this is the marker filter. -/
def collectRemoteTree (remote : FS) : List String × List String :=
  ((remote.files.map (fun q => q.1)).filter (fun p => !hasConflictMarker p),
   remote.dirs.filter (fun d => !hasConflictMarker d))

/-- `collectLocalDirs` (src/index.js:395-406): local directories, root
excluded, marker-containing subtrees pruned. -/
def collectLocalDirs (fs : FS) : List String :=
  fs.dirs.filter (fun d => !hasConflictMarker d)

/-- The `while (cur.startsWith(root))` climb of `pruneEmptyDirTree`
(src/index.js:513-523): at each stage, stop if the current directory is
missing (`readdir` throws) or non-empty; otherwise remove it and move to
its parent.  The stage `cur = ""` is the sync root itself — the loop
guard `cur.startsWith(root)` is still true there, so an empty root is
removed too, after which `path.dirname` leaves the root and the loop
ends.  `fuel` bounds the climb; any fuel at least the path depth plus
one reproduces the source loop, which ascends at most that many times. -/
def pruneClimb (fs : FS) (cur : String) : Nat → FS
  | 0 => fs
  | fuel + 1 =>
      if cur == "" then
        if fs.rootExists && !fs.dirHasEntries "" then { fs with rootExists := false }
        else fs
      else if fs.hasDir cur then
        if fs.dirHasEntries cur then fs
        else pruneClimb (fs.removeDirEntry cur) (parentDir cur) fuel
      else fs

/-- `pruneEmptyDirTree` (src/index.js:513-523): remove the directory if
empty, then prune now-empty parents while `cur.startsWith(root)`. -/
def pruneEmptyDirTree (fs : FS) (relDir : String) : FS :=
  pruneClimb fs relDir (pathDepth relDir + 1)

/-- `removeEmptyParentDirs` (src/index.js:528-546): the identical climb
(the per-step guard is the same `entries.length === 0` check, the
removal `fs.rm(cur, {recursive:false, force:true})`), starting at the
parent directory of a just-deleted file.  The source defines but never
calls this function. -/
def removeEmptyParentDirs (fs : FS) (relFilePath : String) : FS :=
  pruneClimb fs (parentDir relFilePath) (pathDepth relFilePath + 1)

/-- Result of `reconcileRemoteDeletions`: the updated local tree, the
updated one-cycle decline fingerprint, what was deleted, the candidate
sets, and whether the ledger was persisted. -/
structure ReconcileResult where
  localFS : FS
  skipFP : Option (List String × List String)
  deletedFiles : List String
  prunedDirs : List String
  candFiles : List String
  candDirs : List String
  prompted : Bool
  saved : Bool
  savedLedger : Option (List String)
deriving DecidableEq, Repr

/-- The remote-origin *file* deletion candidates (src/index.js:417-422):
ledger entries absent from the remote file snapshot, not marker-carrying,
and still present locally. -/
def remoteDelFileCands (localFS remote : FS) : List String :=
  (loadSyncState localFS).knownFiles.filter
    (fun k => !(collectRemoteTree remote).1.contains k && !hasConflictMarker k
      && (localFS.statFile k).isSome)

/-- The remote-origin *directory* deletion candidates (src/index.js:425-426):
current local directories absent from the remote directory snapshot. -/
def remoteDelDirCands (localFS remote : FS) : List String :=
  (collectLocalDirs localFS).filter (fun d => !(collectRemoteTree remote).2.contains d)

/-- `reconcileRemoteDeletions` (src/index.js:412-454): compute the files
recorded in the ledger that are missing from the remote snapshot but
still present locally, and the local directories missing from the remote
directory snapshot; if the candidate set is non-empty and its fingerprint
is not the remembered declined fingerprint, ask the gate (`answer`); on
decline remember the fingerprint and change nothing; on consent unlink
the files (dropping each from the in-memory ledger), prune the candidate
directories deepest first, and persist the ledger.  (The source computes
the remote snapshot once and both candidate sets from it; the named
candidate functions above are those same pure computations.) -/
def reconcileRemoteDeletions (localFS remote : FS)
    (skip0 : Option (List String × List String)) (answer : Bool) (tSave : Int) :
    ReconcileResult :=
  let state := loadSyncState localFS
  let toDeleteLocalFiles := remoteDelFileCands localFS remote
  let toDeleteLocalDirs := remoteDelDirCands localFS remote
  if toDeleteLocalFiles.length + toDeleteLocalDirs.length > 0 then
    let fp := deletionFingerprint toDeleteLocalFiles toDeleteLocalDirs
    if skip0 == some fp then
      -- same set already declined in this cycle: skip silently
      ⟨localFS, skip0, [], [], toDeleteLocalFiles, toDeleteLocalDirs, false, false, none⟩
    else if !answer then
      -- declined: remember the fingerprint, leave everything untouched
      ⟨localFS, some fp, [], [], toDeleteLocalFiles, toDeleteLocalDirs, true, false, none⟩
    else
      let fs1 := toDeleteLocalFiles.foldl (fun fs k => fs.unlink k) localFS
      let known1 := state.knownFiles.filter (fun k => !toDeleteLocalFiles.contains k)
      let sorted := sortByDepthDesc toDeleteLocalDirs
      let fs2 := sorted.foldl (fun fs d => pruneEmptyDirTree fs d) fs1
      let fs3 := saveSyncState fs2 known1 tSave
      ⟨fs3, skip0, toDeleteLocalFiles, sorted, toDeleteLocalFiles, toDeleteLocalDirs,
        true, true, some known1⟩
  else
    ⟨localFS, skip0, [], [], [], [], false, false, none⟩

/-! ## Upload phase -/

/-- `ensureRemoteDir` (src/index.js:486-495): create each missing prefix of
the remote directory path (guards on `''`, `'/'`, `'.'`; the model's
relative `parentDir` returns `""` for top-level files). -/
def ensureRemoteDir (fs : FS) (d : String) : FS :=
  if d == "" || d == "/" || d == "." then fs else fs.mkdirp d

/-- State threaded through the `uploadDir` walk: evolving local tree (its
mtimes are aligned after each upload), evolving remote tree, the upload
log, the `localPaths` set harvested for the ledger, and the remote
backup artifacts created. -/
structure UploadCtx where
  localFS : FS
  remote : FS
  uploads : List String
  localPaths : List String
  backups : List String
deriving DecidableEq, Repr

/-- One file of the `uploadDir` walk (src/index.js:306-350) together with the
`shouldUpload` decision (src/index.js:353-374): skip marker-carrying
paths; record presence in `localPaths`; stat the remote — missing means
upload; local newer beyond tolerance means upload; remote newer beyond
tolerance means back the remote file up to a remote conflict artifact
and upload anyway (local wins); otherwise skip.  An upload lazily
ensures the remote parent directory, writes the remote file, then aligns
the local mtime to the stored remote mtime. -/
def uploadStep (tRemote : Int) (tsArt : String) (ctx : UploadCtx) (pe : String × Entry) :
    UploadCtx :=
  if hasConflictMarker pe.1 then ctx
  else
    let ctx1 := { ctx with localPaths := ctx.localPaths ++ [pe.1] }
    let doUpload := fun (c : UploadCtx) =>
      let c1 := { c with remote := ensureRemoteDir c.remote (parentDir pe.1) }
      let c2 := { c1 with remote := c1.remote.writeFile pe.1 ⟨tRemote, pe.2.data⟩ }
      { c2 with
        localFS := c2.localFS.setMtime pe.1 tRemote
        uploads := c2.uploads ++ [pe.1] }
    match ctx1.remote.statFile pe.1 with
    | none => doUpload ctx1
    | some r =>
        let timeDiff := pe.2.mtime - r.mtime
        if timeDiff > TIMESTAMP_TOLERANCE then doUpload ctx1
        else if timeDiff < -TIMESTAMP_TOLERANCE then
          let backupName := generateRemoteConflictName pe.1 tsArt
          doUpload
            { ctx1 with
              remote := ctx1.remote.writeFile backupName r
              backups := ctx1.backups ++ [backupName] }
        else ctx1

/-- Result of `fullUpload`. -/
structure UploadResult where
  localFS : FS
  remote : FS
  uploads : List String
  localPaths : List String
  backups : List String
  toDelete : List String
  remoteDeletes : List String
  ledgerWritten : Bool
deriving DecidableEq, Repr

/-- The `uploadDir` walk over the whole local tree (src/index.js:274),
starting from the empty logs. -/
def uploadWalk (localFS remote : FS) (tRemote : Int) (tsArt : String) : UploadCtx :=
  localFS.files.foldl (uploadStep tRemote tsArt) ⟨localFS, remote, [], [], []⟩

/-- The local-origin deletion candidates (src/index.js:276-279): ledger
entries not observed during this cycle's walk, marker paths excluded.
(The source loads the ledger before the walk; the walk never changes the
ledger file's content, only mtimes, so this is the same set.) -/
def localDelCands (localFS remote : FS) (tRemote : Int) (tsArt : String) : List String :=
  (loadSyncState localFS).knownFiles.filter
    (fun k => !(uploadWalk localFS remote tRemote tsArt).localPaths.contains k
      && !hasConflictMarker k)

/-- `fullUpload` (src/index.js:270-300): load the ledger, walk the local
tree uploading as decided and harvesting `localPaths`, compute the
local-origin deletion candidates (`knownFiles` not observed in the walk,
marker paths excluded); if any and the gate declines, return without
deleting and without rewriting the ledger; otherwise delete the
candidates remotely, refresh the ledger to exactly `localPaths`, and
persist it. -/
def fullUpload (localFS remote : FS) (answerLocal : Bool) (tRemote tSave : Int)
    (tsArt : String) : UploadResult :=
  let ctx := uploadWalk localFS remote tRemote tsArt
  let toDelete := localDelCands localFS remote tRemote tsArt
  if toDelete.length > 0 && !answerLocal then
    ⟨ctx.localFS, ctx.remote, ctx.uploads, ctx.localPaths, ctx.backups, toDelete, [], false⟩
  else
    let remote1 := toDelete.foldl (fun r k => r.unlink k) ctx.remote
    let local1 := saveSyncState ctx.localFS ctx.localPaths tSave
    ⟨local1, remote1, ctx.uploads, ctx.localPaths, ctx.backups, toDelete, toDelete, true⟩

/-! ## Download phase -/

/-- State threaded through the `downloadDir` walk. -/
structure DownloadCtx where
  localFS : FS
  downloads : List String
  conflictsSaved : List String
deriving DecidableEq, Repr

/-- One file of the `downloadDir` walk (src/index.js:217-247) together with
the `shouldDownload` decision (src/index.js:249-267): skip
marker-carrying paths; if the local stat fails the file is downloaded
(parent created, remote content written, local mtime set to the remote
mtime); if it succeeds and the remote is newer beyond tolerance the
remote content is saved as a fresh local conflict artifact tagged
`remote` and the local file is left alone; otherwise nothing happens. -/
def downloadStep (tsArt : String) (tArt : Int) (ctx : DownloadCtx) (pr : String × Entry) :
    DownloadCtx :=
  if hasConflictMarker pr.1 then ctx
  else
    match ctx.localFS.statFile pr.1 with
    | some l =>
        let timeDiff := pr.2.mtime - l.mtime
        if timeDiff > TIMESTAMP_TOLERANCE then
          let cname := generateConflictName ctx.localFS pr.1 "remote" tsArt
          { ctx with
            localFS := ctx.localFS.writeFile cname ⟨tArt, pr.2.data⟩
            conflictsSaved := ctx.conflictsSaved ++ [cname] }
        else ctx
    | none =>
        { ctx with
          localFS := ((ctx.localFS.mkdirp (parentDir pr.1)).writeFile pr.1
            ⟨pr.2.mtime, pr.2.data⟩)
          downloads := ctx.downloads ++ [pr.1] }

/-- `fullDownload` (src/index.js:212-247): the walk creates a local
directory for every (non-marker) remote directory and processes every
(non-marker) remote file.  The source interleaves the directory `mkdir`s
with the file decisions; the file decisions do not read the directory
set, so performing the `mkdir`s first is equivalent. -/
def fullDownload (localFS remote : FS) (tsArt : String) (tArt : Int) : DownloadCtx :=
  let local1 := (remote.dirs.filter (fun d => !hasConflictMarker d)).foldl
    (fun fs d => fs.mkdirp d) localFS
  remote.files.foldl (downloadStep tsArt tArt) ⟨local1, [], []⟩

/-! ## The cycle -/

/-- The per-cycle inputs: the two gate answers, the `lastmod` the server
assigns to uploads, the write times of the two possible ledger saves and
of locally written artifacts, and the timestamp string baked into
artifact names. -/
structure CycleParams where
  answerRemote : Bool
  answerLocal : Bool
  tRemote : Int
  tSaveR : Int
  tSaveU : Int
  tArt : Int
  tsArt : String
deriving DecidableEq, Repr

/-- Everything a cycle did, for stating properties. -/
structure CycleLog where
  candRemoteFiles : List String
  candRemoteDirs : List String
  deletedLocalFiles : List String
  reconcileLedger : Option (List String)
  uploads : List String
  localPaths : List String
  backups : List String
  toDeleteRemote : List String
  remoteDeletes : List String
  ledgerWritten : Bool
  downloads : List String
  conflictsSaved : List String
deriving DecidableEq, Repr

/-- The body of `performSync` (src/index.js:141-176) in phase order:
reconcile remote-origin deletions, full upload walk (with local-origin
deletions and the ledger rewrite), full download walk.
`skipRemoteDeletionOnce` is `null` at cycle entry (it is cleared in the
`finally` of the previous cycle). -/
def performSyncCycle (w : World) (pr : CycleParams) : World × CycleLog :=
  let r := reconcileRemoteDeletions w.localFS w.remote none pr.answerRemote pr.tSaveR
  let u := fullUpload r.localFS w.remote pr.answerLocal pr.tRemote pr.tSaveU pr.tsArt
  let d := fullDownload u.localFS u.remote pr.tsArt pr.tArt
  (⟨d.localFS, u.remote⟩,
   ⟨r.candFiles, r.candDirs, r.deletedFiles, r.savedLedger, u.uploads, u.localPaths,
    u.backups, u.toDelete, u.remoteDeletes, u.ledgerWritten, d.downloads, d.conflictsSaved⟩)

/-! ## Orchestrator re-entrancy model -/

/-- The orchestrator's lock state, instrumented with a ghost counter of how
many `performSync` bodies are currently between the guard at entry
(src/index.js:142) and the `finally` (src/index.js:172-175). -/
structure Orch where
  isSyncing : Bool
  running : Nat
deriving DecidableEq, Repr

/-- A tick (or any direct call) reaching `performSync`: if `isSyncing` the
invocation is dropped; otherwise the flag is set and a body starts. -/
def performSyncEnter (o : Orch) : Orch :=
  if o.isSyncing then o else { isSyncing := true, running := o.running + 1 }

/-- A running body reaching its `finally`: clears the flag, body ends. -/
def performSyncFinish (o : Orch) : Orch :=
  { isSyncing := false, running := o.running - 1 }

/-- The `retry-sync` handler (src/index.js:98-107): it resets the error
counter and interval (not modelled here), **sets `isSyncing = false`**,
and immediately invokes the cycle via `startSync()`. -/
def retrySyncCmd (o : Orch) : Orch :=
  performSyncEnter { o with isSyncing := false }

/-- Orchestrator states reachable from startup by timer ticks and body
completions alone (no retry command).  A body can only finish if one is
running. -/
inductive OrchReach : Orch → Prop
  | init : OrchReach ⟨false, 0⟩
  | tick (o : Orch) (h : OrchReach o) : OrchReach (performSyncEnter o)
  | finish (o : Orch) (h : OrchReach o) (hrun : 0 < o.running) :
      OrchReach (performSyncFinish o)

/-! ## Backoff scheduler model -/

/-- The scheduling state of `performSync`'s failure handling:
`consecutiveErrors`, the base interval and the current interval
(minutes). -/
structure Sched where
  consecutiveErrors : Nat
  baseInterval : Nat
  currentInterval : Nat
deriving DecidableEq, Repr

/-- The catch branch of `performSync` (src/index.js:157-171): increment the
error counter; once it reaches `MAX_CONSECUTIVE_ERRORS` the interval is
doubled, capped at 60 minutes, and the ticker re-armed; below the
threshold the schedule is unchanged. -/
def syncFailureStep (s : Sched) : Sched :=
  let errs := s.consecutiveErrors + 1
  if MAX_CONSECUTIVE_ERRORS ≤ errs then
    { s with
      consecutiveErrors := errs
      currentInterval := min (s.currentInterval * BACKOFF_MULTIPLIER) 60 }
  else { s with consecutiveErrors := errs }

/-- The success tail of `performSync` (src/index.js:148-155): reset the
error counter; if the interval was backed off, restore the base interval
and re-arm. -/
def syncSuccessStep (s : Sched) : Sched :=
  { s with consecutiveErrors := 0, currentInterval := s.baseInterval }

/-- Scheduler states reachable from a 5-minute base interval. -/
inductive SchedReach : Sched → Prop
  | init : SchedReach ⟨0, 5, 5⟩
  | fail (s : Sched) (h : SchedReach s) : SchedReach (syncFailureStep s)
  | succeed (s : Sched) (h : SchedReach s) : SchedReach (syncSuccessStep s)

/-! ## Helper lemmas: `find?`, `statFile` and friends -/

theorem find?_append_eq {α : Type} (l₁ l₂ : List α) (p : α → Bool) :
    (l₁ ++ l₂).find? p =
      match l₁.find? p with
      | some a => some a
      | none => l₂.find? p := by
  induction l₁ with
  | nil => simp
  | cons a as ih =>
      by_cases h : p a = true
      · simp [List.find?_cons, h]
      · simp only [Bool.not_eq_true] at h
        simp [List.find?_cons, h, ih]

theorem find?_filter_of_imp {α : Type} (l : List α) (p keep : α → Bool)
    (h : ∀ x, p x = true → keep x = true) :
    (l.filter keep).find? p = l.find? p := by
  induction l with
  | nil => simp
  | cons a as ih =>
      by_cases hp : p a = true
      · simp [List.filter_cons, h a hp, List.find?_cons, hp]
      · simp only [Bool.not_eq_true] at hp
        by_cases hk : keep a = true
        · simp [List.filter_cons, hk, List.find?_cons, hp, ih]
        · simp only [Bool.not_eq_true] at hk
          simp [List.filter_cons, hk, List.find?_cons, hp, ih]

theorem statFile_writeFile_self (fs : FS) (p : String) (e : Entry) :
    (fs.writeFile p e).statFile p = some e := by
  unfold FS.writeFile FS.statFile
  simp only
  rw [find?_append_eq]
  have h : (fs.files.filter (fun q => q.1 != p)).find? (fun q => q.1 == p) = none := by
    rw [List.find?_eq_none]
    intro x hx
    have := (List.mem_filter.mp hx).2
    simp only [bne_iff_ne, ne_eq] at this
    simp [this]
  rw [h]
  simp [List.find?_cons]

theorem statFile_writeFile_ne (fs : FS) {p q : String} (e : Entry) (h : p ≠ q) :
    (fs.writeFile q e).statFile p = fs.statFile p := by
  unfold FS.writeFile FS.statFile
  simp only
  rw [find?_append_eq, find?_filter_of_imp]
  · have : ((q, e).1 == p) = false := by
      simp only [beq_eq_false_iff_ne, ne_eq]
      exact fun hqp => h hqp.symm
    cases hf : fs.files.find? (fun r => r.1 == p) <;> simp [List.find?_cons, this]
  · intro x hx
    have : x.1 = p := by simpa using hx
    simp [this, bne_iff_ne]
    exact fun hpq => h hpq

theorem statFile_unlink_self (fs : FS) (p : String) :
    (fs.unlink p).statFile p = none := by
  unfold FS.unlink FS.statFile
  simp only
  have h : (fs.files.filter (fun q => q.1 != p)).find? (fun q => q.1 == p) = none := by
    rw [List.find?_eq_none]
    intro x hx
    have := (List.mem_filter.mp hx).2
    simp only [bne_iff_ne, ne_eq] at this
    simp [this]
  rw [h]
  rfl

theorem statFile_unlink_ne (fs : FS) {p q : String} (h : p ≠ q) :
    (fs.unlink q).statFile p = fs.statFile p := by
  unfold FS.unlink FS.statFile
  simp only
  rw [find?_filter_of_imp]
  intro x hx
  have : x.1 = p := by simpa using hx
  simp [this, bne_iff_ne]
  exact fun hpq => h hpq

theorem find?_map_keyed (l : List (String × Entry)) (p q : String) (t : Int) :
    (l.map (fun r => if r.1 == q then (r.1, { r.2 with mtime := t }) else r)).find?
        (fun r => r.1 == p) =
      if p = q then
        (l.find? (fun r => r.1 == p)).map (fun r => (r.1, { r.2 with mtime := t }))
      else l.find? (fun r => r.1 == p) := by
  induction l with
  | nil => by_cases h : p = q <;> simp [h]
  | cons a as ih =>
      rw [List.map_cons]
      by_cases haq : a.1 = q
      · have hhead : (if a.1 == q then (a.1, { a.2 with mtime := t }) else a)
            = (a.1, { a.2 with mtime := t }) := by simp [haq]
        rw [hhead]
        by_cases hap : a.1 = p
        · have hpq : p = q := by rw [← hap]; exact haq
          rw [List.find?_cons_of_pos _ (by simp [hap]),
            List.find?_cons_of_pos _ (by simp [hap]), if_pos hpq]
          simp
        · rw [List.find?_cons_of_neg _ (by simp [hap]),
            List.find?_cons_of_neg _ (by simp [hap]), ih]
      · have hhead : (if a.1 == q then (a.1, { a.2 with mtime := t }) else a) = a := by
          simp [haq]
        rw [hhead]
        by_cases hap : a.1 = p
        · have hpq : p ≠ q := fun h => haq (hap.trans h)
          rw [List.find?_cons_of_pos _ (by simp [hap]),
            List.find?_cons_of_pos _ (by simp [hap]), if_neg hpq]
        · rw [List.find?_cons_of_neg _ (by simp [hap]),
            List.find?_cons_of_neg _ (by simp [hap]), ih]

theorem statFile_setMtime (fs : FS) (p q : String) (t : Int) :
    (fs.setMtime q t).statFile p =
      if p = q then (fs.statFile p).map (fun e => ⟨t, e.data⟩) else fs.statFile p := by
  unfold FS.setMtime FS.statFile
  simp only
  rw [find?_map_keyed]
  by_cases h : p = q
  · rw [if_pos h, if_pos h]
    cases fs.files.find? (fun r => r.1 == p) <;> rfl
  · rw [if_neg h, if_neg h]

theorem statFile_setMtime_data (fs : FS) (p q : String) (t : Int) :
    ((fs.setMtime q t).statFile p).map (fun e => e.data)
      = (fs.statFile p).map (fun e => e.data) := by
  rw [statFile_setMtime]
  by_cases h : p = q
  · rw [if_pos h]
    cases fs.statFile p <;> rfl
  · rw [if_neg h]

theorem files_mkdirp (fs : FS) (d : String) : (fs.mkdirp d).files = fs.files := by
  unfold FS.mkdirp
  split <;> rfl

theorem files_ensureRemoteDir (fs : FS) (d : String) :
    (ensureRemoteDir fs d).files = fs.files := by
  unfold ensureRemoteDir
  split
  · rfl
  · exact files_mkdirp fs d

theorem statFile_mkdirp (fs : FS) (d p : String) :
    (fs.mkdirp d).statFile p = fs.statFile p := by
  unfold FS.statFile
  rw [files_mkdirp]

theorem statFile_ensureRemoteDir (fs : FS) (d p : String) :
    (ensureRemoteDir fs d).statFile p = fs.statFile p := by
  unfold FS.statFile
  rw [files_ensureRemoteDir]

theorem dirs_writeFile (fs : FS) (p : String) (e : Entry) :
    (fs.writeFile p e).dirs = fs.dirs := rfl

theorem dirs_setMtime (fs : FS) (p : String) (t : Int) :
    (fs.setMtime p t).dirs = fs.dirs := rfl

theorem dirs_unlink (fs : FS) (p : String) : (fs.unlink p).dirs = fs.dirs := rfl

theorem rootExists_writeFile (fs : FS) (p : String) (e : Entry) :
    (fs.writeFile p e).rootExists = fs.rootExists := rfl

/-- The directory accumulator of `mkdirp`/`ensureRemoteDir` only appends. -/
theorem mem_dirAcc_foldl (l : List String) (ds : List String) (x : String) (h : x ∈ ds) :
    x ∈ l.foldl (fun ds q => if ds.contains q then ds else ds ++ [q]) ds := by
  induction l generalizing ds with
  | nil => exact h
  | cons a as ih =>
      simp only [List.foldl_cons]
      by_cases ha : ds.contains a
      · rw [if_pos ha]
        exact ih ds h
      · rw [if_neg ha]
        exact ih (ds ++ [a]) (List.mem_append_left _ h)

/-- `mkdirp` preserves existing directories. -/
theorem mem_dirs_mkdirp (fs : FS) (d x : String) (h : x ∈ fs.dirs) :
    x ∈ (fs.mkdirp d).dirs := by
  unfold FS.mkdirp
  split
  · exact h
  · exact mem_dirAcc_foldl _ _ _ h

/-- The accumulator ends up containing every element of `l`. -/
theorem mem_dirAcc_foldl_of_mem (l : List String) (ds : List String) (x : String)
    (h : x ∈ l) :
    x ∈ l.foldl (fun ds q => if ds.contains q then ds else ds ++ [q]) ds := by
  induction l generalizing ds with
  | nil => cases h
  | cons a as ih =>
      simp only [List.foldl_cons]
      rcases List.mem_cons.mp h with rfl | hx
      · by_cases ha : ds.contains x
        · rw [if_pos ha]
          exact mem_dirAcc_foldl as ds x (by simpa using ha)
        · rw [if_neg ha]
          exact mem_dirAcc_foldl as _ x (List.mem_append_right _ (List.mem_singleton.mpr rfl))
      · by_cases ha : ds.contains a
        · rw [if_pos ha]
          exact ih ds hx
        · rw [if_neg ha]
          exact ih _ hx

/-- `mkdirp d` (for `d ≠ ""`) creates the whole prefix chain of `d`. -/
theorem mem_dirs_mkdirp_of_prefix (fs : FS) (d x : String) (hd : (d == "") = false)
    (h : x ∈ pathPrefixes (splitPath d)) :
    x ∈ (fs.mkdirp d).dirs := by
  unfold FS.mkdirp
  rw [if_neg (by simp_all)]
  exact mem_dirAcc_foldl_of_mem _ _ _ h

/-- Round trip: saving then loading the ledger yields exactly what was saved. -/
theorem loadSyncState_saveSyncState (fs : FS) (ks : List String) (t : Int) :
    loadSyncState (saveSyncState fs ks t) = ⟨ks⟩ := by
  unfold loadSyncState saveSyncState
  rw [statFile_writeFile_self]

/-- Reading the ledger through a write to a different path is unchanged. -/
theorem loadSyncState_writeFile_ne (fs : FS) (p : String) (e : Entry)
    (h : p ≠ stateFileName) :
    loadSyncState (fs.writeFile p e) = loadSyncState fs := by
  unfold loadSyncState
  rw [statFile_writeFile_ne fs e (fun hh => h hh.symm)]

/-- `setMtime` never changes what the ledger parses to. -/
theorem loadSyncState_setMtime (fs : FS) (p : String) (t : Int) :
    loadSyncState (fs.setMtime p t) = loadSyncState fs := by
  unfold loadSyncState
  rw [statFile_setMtime]
  by_cases h : stateFileName = p
  · rw [if_pos h]
    cases hf : fs.statFile stateFileName <;> simp [hf]
  · rw [if_neg h]

/-! ## Helper lemmas: the prune climb -/

theorem pruneClimb_files (fs : FS) (cur : String) (fuel : Nat) :
    (pruneClimb fs cur fuel).files = fs.files := by
  induction fuel generalizing fs cur with
  | zero => rfl
  | succ n ih =>
      unfold pruneClimb
      split
      · split <;> rfl
      · split
        · split
          · rfl
          · rw [ih]
            rfl
        · rfl

theorem pruneEmptyDirTree_files (fs : FS) (d : String) :
    (pruneEmptyDirTree fs d).files = fs.files := pruneClimb_files fs d _

theorem pruneClimb_statFile (fs : FS) (cur p : String) (fuel : Nat) :
    (pruneClimb fs cur fuel).statFile p = fs.statFile p := by
  unfold FS.statFile
  rw [pruneClimb_files]

theorem pruneClimb_dirs_subset (fs : FS) (cur : String) (fuel : Nat) (x : String)
    (h : x ∈ (pruneClimb fs cur fuel).dirs) : x ∈ fs.dirs := by
  induction fuel generalizing fs cur with
  | zero => exact h
  | succ n ih =>
      unfold pruneClimb at h
      split at h
      · split at h <;> exact h
      · split at h
        · split at h
          · exact h
          · have := ih _ _ h
            exact (List.mem_filter.mp this).1
        · exact h

/-- Prune folds (over candidate directory lists) never touch files. -/
theorem foldl_prune_files (l : List String) (fs : FS) :
    (l.foldl (fun fs d => pruneEmptyDirTree fs d) fs).files = fs.files := by
  induction l generalizing fs with
  | nil => rfl
  | cons a as ih => rw [List.foldl_cons, ih, pruneEmptyDirTree_files]

/-! ## Helper lemmas: unlink folds -/

theorem foldl_unlink_statFile_none (l : List String) (fs : FS) (p : String)
    (h : fs.statFile p = none) :
    ((l.foldl (fun fs k => fs.unlink k) fs).statFile p) = none := by
  induction l generalizing fs with
  | nil => exact h
  | cons a as ih =>
      rw [List.foldl_cons]
      apply ih
      by_cases hpa : p = a
      · subst hpa
        exact statFile_unlink_self fs p
      · rw [statFile_unlink_ne fs hpa]
        exact h

theorem foldl_unlink_statFile_mem (l : List String) (fs : FS) (p : String) (h : p ∈ l) :
    ((l.foldl (fun fs k => fs.unlink k) fs).statFile p) = none := by
  induction l generalizing fs with
  | nil => cases h
  | cons a as ih =>
      rw [List.foldl_cons]
      rcases List.mem_cons.mp h with rfl | hp
      · exact foldl_unlink_statFile_none as _ p (statFile_unlink_self fs p)
      · exact ih _ hp

theorem foldl_unlink_statFile_not_mem (l : List String) (fs : FS) (p : String)
    (h : p ∉ l) :
    ((l.foldl (fun fs k => fs.unlink k) fs).statFile p) = fs.statFile p := by
  induction l generalizing fs with
  | nil => rfl
  | cons a as ih =>
      rw [List.foldl_cons]
      have hpa : p ≠ a := fun hh => h (hh ▸ List.mem_cons_self a as)
      rw [ih _ (fun hh => h (List.mem_cons_of_mem a hh)), statFile_unlink_ne fs hpa]

/-! ## Helper lemmas: prune-climb stopping and scheduler/orchestrator invariants -/

/-- The climb stops immediately (changing nothing) at a non-empty directory. -/
theorem pruneClimb_stop_nonempty (fs : FS) (cur : String) (n : Nat)
    (h : fs.dirHasEntries cur = true) : pruneClimb fs cur (n + 1) = fs := by
  unfold pruneClimb
  by_cases hd0 : (cur == "") = true
  · rw [if_pos hd0]
    have hde : cur = "" := by simpa using hd0
    rw [hde] at h
    simp [h]
  · rw [if_neg hd0]
    by_cases hhd : fs.hasDir cur = true
    · rw [if_pos hhd, if_pos h]
    · rw [if_neg hhd]

/-- An empty existing directory is removed by the climb and never restored. -/
theorem pruneClimb_removes_empty (fs : FS) (d : String) (n : Nat)
    (hd0 : (d == "") = false) (hhd : fs.hasDir d = true)
    (hne : fs.dirHasEntries d = false) : d ∉ (pruneClimb fs d (n + 1)).dirs := by
  unfold pruneClimb
  rw [if_neg (by simp [hd0]), if_pos hhd, if_neg (by simp [hne])]
  intro hmem
  have := pruneClimb_dirs_subset _ _ _ _ hmem
  have : d ∈ fs.dirs.filter (fun s => s != d) := this
  have := (List.mem_filter.mp this).2
  simp at this

/-- The invariant of the scheduler reachable states: the base interval stays
at 5 minutes and the current interval never exceeds the 60-minute cap. -/
theorem schedReach_invariant (s : Sched) (h : SchedReach s) :
    s.baseInterval = 5 ∧ s.currentInterval ≤ 60 := by
  induction h with
  | init => exact ⟨rfl, by decide⟩
  | fail s h ih =>
      simp only [syncFailureStep]
      split
      · exact ⟨ih.1, Nat.min_le_right _ 60⟩
      · exact ih
  | succeed s h ih =>
      refine ⟨ih.1, ?_⟩
      simp only [syncSuccessStep]
      rw [ih.1]
      omega

/-- The invariant of the retry-free orchestrator: at most one body runs, and
when the flag is clear no body runs. -/
theorem orchReach_invariant (o : Orch) (h : OrchReach o) :
    o.running ≤ 1 ∧ (o.isSyncing = false → o.running = 0) := by
  induction h with
  | init => exact ⟨by decide, fun _ => rfl⟩
  | tick o h ih =>
      unfold performSyncEnter
      by_cases hs : o.isSyncing = true
      · rw [if_pos hs]
        exact ih
      · rw [if_neg hs]
        have h0 : o.running = 0 := ih.2 (by simpa using hs)
        exact ⟨by simp [h0], fun hfalse => by simp at hfalse⟩
  | finish o h hrun ih =>
      exact ⟨by have := ih.1; simp only [performSyncFinish]; omega,
        fun _ => by have := ih.1; simp only [performSyncFinish]; omega⟩

/-! ## Claim theorems -/

/-- C9 (confirmed): Corrupt-ledger resilience.  `loadSyncState` is a total
function (it never raises by construction), and in each degenerate
durable state — the ledger file missing, its content unparseable, or a
parsed document without a usable `knownFiles` mapping — it returns the
empty ledger. -/
theorem C9_corrupt_ledger_resilience (fs : FS) :
    (fs.statFile stateFileName = none → loadSyncState fs = ⟨[]⟩)
    ∧ (∀ e : Entry, fs.statFile stateFileName = some e →
        e.data = FileData.badJson → loadSyncState fs = ⟨[]⟩)
    ∧ (∀ e : Entry, fs.statFile stateFileName = some e →
        e.data = FileData.jsonNoLedger → loadSyncState fs = ⟨[]⟩) := by
  refine ⟨fun h => ?_, fun e he hd => ?_, fun e he hd => ?_⟩ <;>
    simp [loadSyncState, *]

/-- Witness for C9 at a concrete corrupt ledger document. -/
theorem C9_corrupt_ledger_resilience_witness :
    loadSyncState ⟨true, [(stateFileName, ⟨0, FileData.badJson⟩)], []⟩ = ⟨[]⟩ :=
  (C9_corrupt_ledger_resilience _).2.1 ⟨0, FileData.badJson⟩ (by decide) rfl

/-- C5 (confirmed): Backoff schedule.  From the 5-minute base, the third
consecutive failure doubles the interval to 10 and a fourth to 20; on
every reachable state the interval is at most the 60-minute cap; a
success resets the counter to zero and the interval to the base; below
the threshold of 3 a failure leaves the interval unchanged. -/
theorem C5_backoff_schedule :
    (syncFailureStep (syncFailureStep (syncFailureStep ⟨0, 5, 5⟩)) = ⟨3, 5, 10⟩)
    ∧ (syncFailureStep ⟨3, 5, 10⟩ = ⟨4, 5, 20⟩)
    ∧ (∀ s : Sched, SchedReach s → s.currentInterval ≤ 60)
    ∧ (∀ s : Sched, (syncSuccessStep s).consecutiveErrors = 0
        ∧ (syncSuccessStep s).currentInterval = s.baseInterval)
    ∧ (∀ s : Sched, s.consecutiveErrors + 1 < MAX_CONSECUTIVE_ERRORS →
        (syncFailureStep s).currentInterval = s.currentInterval) := by
  refine ⟨by decide, by decide, fun s h => (schedReach_invariant s h).2,
    fun s => ⟨rfl, rfl⟩, fun s h => ?_⟩
  unfold MAX_CONSECUTIVE_ERRORS at h
  simp only [syncFailureStep]
  rw [if_neg (by unfold MAX_CONSECUTIVE_ERRORS; omega)]

/-- Witness for C5 at concrete scheduler states. -/
theorem C5_backoff_schedule_witness :
    (⟨0, 5, 5⟩ : Sched).currentInterval ≤ 60
    ∧ (syncFailureStep ⟨0, 5, 5⟩).currentInterval = (⟨0, 5, 5⟩ : Sched).currentInterval :=
  ⟨C5_backoff_schedule.2.2.1 ⟨0, 5, 5⟩ SchedReach.init,
   C5_backoff_schedule.2.2.2.2 ⟨0, 5, 5⟩ (by decide)⟩

/-- C1 counterexample: the claim that *any* invocation arriving while a cycle
is running is dropped — including one triggered by the retry command —
is false.  After a tick starts a cycle (one body in flight), the
`retry-sync` handler clears `isSyncing` (src/index.js:104) and invokes
the cycle again, so two bodies are in flight at once. -/
theorem C1_counterexample :
    (performSyncEnter ⟨false, 0⟩).running = 1
    ∧ (retrySyncCmd (performSyncEnter ⟨false, 0⟩)).running = 2 := by decide

/-- C1 (corrected): along every trace of timer ticks and body completions —
without the retry command — at most one cycle body is ever in flight,
and a tick that reaches `performSync` while `isSyncing` is set leaves
the engine unchanged (the tick is dropped, not queued).  The retry
command, however, clears the re-entrancy flag and can start a second
overlapping body (see the counterexample). -/
theorem C1_single_cycle_in_flight :
    (∀ o : Orch, OrchReach o → o.running ≤ 1)
    ∧ (∀ o : Orch, o.isSyncing = true → performSyncEnter o = o) := by
  refine ⟨fun o h => (orchReach_invariant o h).1, fun o h => ?_⟩
  unfold performSyncEnter
  rw [if_pos h]

/-- Witness for C1 at the initial state and a running state. -/
theorem C1_single_cycle_in_flight_witness :
    (⟨false, 0⟩ : Orch).running ≤ 1 ∧ performSyncEnter ⟨true, 1⟩ = ⟨true, 1⟩ :=
  ⟨C1_single_cycle_in_flight.1 ⟨false, 0⟩ OrchReach.init,
   C1_single_cycle_in_flight.2 ⟨true, 1⟩ rfl⟩

/-- C10 (confirmed): the engine never deletes a non-empty local directory.
Both climbs (`pruneEmptyDirTree`, and the uncalled
`removeEmptyParentDirs`) never touch files at all, and when the starting
directory still has entries they change nothing — the confirmed
remote-origin directory deletion leaves the directory and its contents
in place. -/
theorem C10_never_deletes_nonempty_dir :
    (∀ (fs : FS) (d : String), (pruneEmptyDirTree fs d).files = fs.files)
    ∧ (∀ (fs : FS) (f : String), (removeEmptyParentDirs fs f).files = fs.files)
    ∧ (∀ (fs : FS) (d : String), fs.dirHasEntries d = true →
        pruneEmptyDirTree fs d = fs)
    ∧ (∀ (fs : FS) (f : String), fs.dirHasEntries (parentDir f) = true →
        removeEmptyParentDirs fs f = fs) := by
  refine ⟨fun fs d => pruneEmptyDirTree_files fs d,
    fun fs f => pruneClimb_files fs _ _,
    fun fs d h => pruneClimb_stop_nonempty fs d _ h,
    fun fs f h => pruneClimb_stop_nonempty fs _ _ h⟩

/-- Witness for C10: a directory that still contains a file survives a
confirmed prune untouched. -/
theorem C10_never_deletes_nonempty_dir_witness :
    pruneEmptyDirTree ⟨true, [("a/f.txt", ⟨0, FileData.bytes 0⟩)], ["a"]⟩ "a"
      = ⟨true, [("a/f.txt", ⟨0, FileData.bytes 0⟩)], ["a"]⟩ :=
  C10_never_deletes_nonempty_dir.2.2.1 _ "a" (by decide)

/-- C8 counterexample: pruning does *not* stop short of the synchronization
root.  With an empty candidate directory `d` as the only root entry (and
no ledger file on disk yet), the climb removes `d` and then, the root
being empty and `cur.startsWith(root)` still true (src/index.js:516),
removes the root itself. -/
theorem C8_counterexample :
    (⟨true, [], ["d"]⟩ : FS).rootExists = true
    ∧ (pruneEmptyDirTree ⟨true, [], ["d"]⟩ "d").rootExists = false := by decide

/-- C8 (corrected): after confirmation the engine removes the empty
directory and climbs upward, stopping at the first non-empty (or
missing) ancestor; but the climb's boundary check `cur.startsWith(root)`
admits the root itself, so when the climb reaches the root and finds it
empty, the root too is removed — pruning is *not* bounded strictly below
the synchronization root. -/
theorem C8_prune_boundary :
    (∀ (fs : FS) (d : String), (d == "") = false → fs.hasDir d = true →
        fs.dirHasEntries d = false → d ∉ (pruneEmptyDirTree fs d).dirs)
    ∧ (∀ (fs : FS) (d : String), fs.dirHasEntries d = true →
        pruneEmptyDirTree fs d = fs)
    ∧ (∀ (fs : FS) (n : Nat), fs.rootExists = true → fs.dirHasEntries "" = false →
        (pruneClimb fs "" (n + 1)).rootExists = false) := by
  refine ⟨fun fs d h0 h1 h2 => pruneClimb_removes_empty fs d _ h0 h1 h2,
    fun fs d h => pruneClimb_stop_nonempty fs d _ h, fun fs n h1 h2 => ?_⟩
  unfold pruneClimb
  rw [if_pos (by decide), if_pos (by simp [h1, h2])]

/-- Witness for C8 at a concrete tree: the empty directory is removed, and
the empty root is removed when the climb reaches it. -/
theorem C8_prune_boundary_witness :
    "d" ∉ (pruneEmptyDirTree ⟨true, [("x", ⟨0, FileData.bytes 0⟩)], ["d"]⟩ "d").dirs
    ∧ (pruneClimb ⟨true, [], []⟩ "" 1).rootExists = false :=
  ⟨C8_prune_boundary.1 ⟨true, [("x", ⟨0, FileData.bytes 0⟩)], ["d"]⟩ "d"
      (by decide) (by decide) (by decide),
   C8_prune_boundary.2.2 ⟨true, [], []⟩ 0 rfl (by decide)⟩

/-! ## The deletion reconciler: branch equations and C3 -/

/-- Declining the gate (or being on any no-consent path) leaves the local
tree untouched and persists nothing. -/
theorem reconcile_no_consent (lf r : FS) (skip0 : Option (List String × List String))
    (t : Int) :
    (reconcileRemoteDeletions lf r skip0 false t).localFS = lf
    ∧ (reconcileRemoteDeletions lf r skip0 false t).saved = false := by
  constructor <;>
  · simp only [reconcileRemoteDeletions]
    split
    · split
      · rfl
      · simp
    · rfl

/-- The consent branch, as an equation: files unlinked, directories pruned
deepest first, ledger filtered and persisted. -/
theorem reconcile_consent_eq (lf r : FS) (skip0 : Option (List String × List String))
    (t : Int)
    (hcond : 0 < (remoteDelFileCands lf r).length + (remoteDelDirCands lf r).length)
    (hskip : (skip0 == some (deletionFingerprint (remoteDelFileCands lf r)
        (remoteDelDirCands lf r))) = false) :
    reconcileRemoteDeletions lf r skip0 true t =
      ⟨saveSyncState
          ((sortByDepthDesc (remoteDelDirCands lf r)).foldl
            (fun fs d => pruneEmptyDirTree fs d)
            ((remoteDelFileCands lf r).foldl (fun fs k => fs.unlink k) lf))
          ((loadSyncState lf).knownFiles.filter
            (fun k => !(remoteDelFileCands lf r).contains k)) t,
        skip0, remoteDelFileCands lf r, sortByDepthDesc (remoteDelDirCands lf r),
        remoteDelFileCands lf r, remoteDelDirCands lf r, true, true,
        some ((loadSyncState lf).knownFiles.filter
          (fun k => !(remoteDelFileCands lf r).contains k))⟩ := by
  simp only [reconcileRemoteDeletions]
  rw [if_pos hcond, if_neg (by simp [hskip])]
  simp

/-- C3 (confirmed): deletion requires consent and is atomic on decline.  For
a file recorded in the ledger, absent from the remote snapshot, and still
present locally: when the gate answers no, the local tree (hence the
local copy) and the persisted ledger are untouched and the entry is still
recorded; when the gate answers yes, the local file is unlinked, its
entry is gone from the ledger, and the ledger is persisted. -/
theorem C3_deletion_requires_consent (lf r : FS) (t : Int) (p : String)
    (hmem : p ∈ (loadSyncState lf).knownFiles)
    (hrem : (collectRemoteTree r).1.contains p = false)
    (hmark : hasConflictMarker p = false)
    (hloc : (lf.statFile p).isSome = true)
    (hp : p ≠ stateFileName) :
    ((reconcileRemoteDeletions lf r none false t).localFS = lf
      ∧ (reconcileRemoteDeletions lf r none false t).saved = false
      ∧ p ∈ (loadSyncState (reconcileRemoteDeletions lf r none false t).localFS).knownFiles)
    ∧ ((reconcileRemoteDeletions lf r none true t).localFS.statFile p = none
      ∧ p ∉ (loadSyncState
          (reconcileRemoteDeletions lf r none true t).localFS).knownFiles
      ∧ (reconcileRemoteDeletions lf r none true t).saved = true) := by
  have hptd : p ∈ remoteDelFileCands lf r := by
    refine List.mem_filter.mpr ⟨hmem, ?_⟩
    simp only [hrem, hmark, hloc]
    rfl
  have hcond : 0 < (remoteDelFileCands lf r).length + (remoteDelDirCands lf r).length := by
    have hne : remoteDelFileCands lf r ≠ [] := List.ne_nil_of_mem hptd
    have := List.length_pos.mpr hne
    omega
  have heq := reconcile_consent_eq lf r none t hcond (by rfl)
  refine ⟨⟨(reconcile_no_consent lf r none t).1, (reconcile_no_consent lf r none t).2, ?_⟩,
    ?_, ?_, ?_⟩
  · rw [(reconcile_no_consent lf r none t).1]
    exact hmem
  · rw [heq]
    simp only
    unfold saveSyncState
    rw [statFile_writeFile_ne _ _ hp]
    have h1 : (({ ((sortByDepthDesc (remoteDelDirCands lf r)).foldl
        (fun fs d => pruneEmptyDirTree fs d)
        ((remoteDelFileCands lf r).foldl (fun fs k => fs.unlink k) lf)) with
        rootExists := true } : FS)).statFile p
        = ((sortByDepthDesc (remoteDelDirCands lf r)).foldl
            (fun fs d => pruneEmptyDirTree fs d)
            ((remoteDelFileCands lf r).foldl (fun fs k => fs.unlink k) lf)).statFile p := rfl
    rw [h1]
    have h2 : ∀ (l : List String) (fs : FS) (q : String),
        ((l.foldl (fun fs d => pruneEmptyDirTree fs d) fs)).statFile q = fs.statFile q := by
      intro l fs q
      unfold FS.statFile
      rw [foldl_prune_files]
    rw [h2]
    exact foldl_unlink_statFile_mem _ _ _ hptd
  · rw [heq]
    simp only
    rw [loadSyncState_saveSyncState]
    intro hmem2
    have := (List.mem_filter.mp hmem2).2
    rw [Bool.not_eq_true'] at this
    exact absurd hptd (by simpa using this)
  · rw [heq]

/-- Witness for C3 at a concrete world: `gone.txt` is baselined, missing
remotely, present locally; consent removes the local copy. -/
theorem C3_deletion_requires_consent_witness :
    (reconcileRemoteDeletions
        ⟨true, [(stateFileName, ⟨0, FileData.ledgerDoc ["gone.txt"]⟩),
          ("gone.txt", ⟨0, FileData.bytes 7⟩)], []⟩
        ⟨true, [], []⟩ none true 50).localFS.statFile "gone.txt" = none :=
  (C3_deletion_requires_consent
    ⟨true, [(stateFileName, ⟨0, FileData.ledgerDoc ["gone.txt"]⟩),
      ("gone.txt", ⟨0, FileData.bytes 7⟩)], []⟩
    ⟨true, [], []⟩ 50 "gone.txt" (by decide) (by decide) (by decide) (by decide)
    (by decide)).2.1

/-! ## The upload walk: per-step facts -/

/-- Each walk step appends exactly the non-marker path to `localPaths`. -/
theorem uploadStep_localPaths (tR : Int) (ts : String) (ctx : UploadCtx)
    (pe : String × Entry) :
    (uploadStep tR ts ctx pe).localPaths =
      if hasConflictMarker pe.1 then ctx.localPaths else ctx.localPaths ++ [pe.1] := by
  unfold uploadStep
  split
  · rfl
  · dsimp only
    split
    · rfl
    · split
      · rfl
      · split <;> rfl

/-- Each walk step either leaves the local tree alone or aligns one mtime. -/
theorem uploadStep_localFS (tR : Int) (ts : String) (ctx : UploadCtx)
    (pe : String × Entry) :
    (uploadStep tR ts ctx pe).localFS = ctx.localFS
    ∨ (uploadStep tR ts ctx pe).localFS = ctx.localFS.setMtime pe.1 tR := by
  unfold uploadStep
  split
  · exact Or.inl rfl
  · dsimp only
    split
    · exact Or.inr rfl
    · split
      · exact Or.inr rfl
      · split
        · exact Or.inr rfl
        · exact Or.inl rfl

/-- Each walk step only ever appends the walked (non-marker) path to the
upload log. -/
theorem uploadStep_uploads (tR : Int) (ts : String) (ctx : UploadCtx)
    (pe : String × Entry) (q : String) (hq : q ∈ (uploadStep tR ts ctx pe).uploads) :
    q ∈ ctx.uploads ∨ (q = pe.1 ∧ hasConflictMarker pe.1 = false) := by
  unfold uploadStep at hq
  split at hq
  · exact Or.inl hq
  next hmark =>
    have hm : hasConflictMarker pe.1 = false := by simpa using hmark
    dsimp only at hq
    split at hq
    · rcases List.mem_append.mp hq with h | h
      · exact Or.inl h
      · exact Or.inr ⟨List.mem_singleton.mp h, hm⟩
    · split at hq
      · rcases List.mem_append.mp hq with h | h
        · exact Or.inl h
        · exact Or.inr ⟨List.mem_singleton.mp h, hm⟩
      · split at hq
        · rcases List.mem_append.mp hq with h | h
          · exact Or.inl h
          · exact Or.inr ⟨List.mem_singleton.mp h, hm⟩
        · exact Or.inl hq

/-- `localPaths` after the walk: precisely the non-marker walked paths, in
walk order. -/
theorem foldl_uploadStep_localPaths (tR : Int) (ts : String)
    (L : List (String × Entry)) (ctx : UploadCtx) :
    (L.foldl (uploadStep tR ts) ctx).localPaths =
      ctx.localPaths ++ (L.map (fun q => q.1)).filter (fun p => !hasConflictMarker p) := by
  induction L generalizing ctx with
  | nil => simp
  | cons a as ih =>
      rw [List.foldl_cons, ih, uploadStep_localPaths]
      by_cases h : hasConflictMarker a.1
      · simp [h]
      · simp [h]

/-- The ledger's parsed content survives the walk (only mtimes move). -/
theorem foldl_uploadStep_loadSyncState (tR : Int) (ts : String)
    (L : List (String × Entry)) (ctx : UploadCtx) :
    loadSyncState ((L.foldl (uploadStep tR ts) ctx).localFS) = loadSyncState ctx.localFS := by
  induction L generalizing ctx with
  | nil => rfl
  | cons a as ih =>
      rw [List.foldl_cons, ih]
      rcases uploadStep_localFS tR ts ctx a with h | h
      · rw [h]
      · rw [h, loadSyncState_setMtime]

/-- Marker paths are never uploaded. -/
theorem foldl_uploadStep_uploads_marker (tR : Int) (ts : String)
    (L : List (String × Entry)) (ctx : UploadCtx) (q : String)
    (hm : hasConflictMarker q = true) (h0 : q ∉ ctx.uploads) :
    q ∉ (L.foldl (uploadStep tR ts) ctx).uploads := by
  induction L generalizing ctx with
  | nil => exact h0
  | cons a as ih =>
      rw [List.foldl_cons]
      refine ih _ (fun hq => ?_)
      rcases uploadStep_uploads tR ts ctx a q hq with h | ⟨rfl, hf⟩
      · exact h0 h
      · rw [hm] at hf
        cases hf

/-! ## C6: the ledger rewrite at the end of the upload phase -/

/-- C6 counterexample: with a baselined path missing locally and the gate
declining the local-origin deletion, `fullUpload` returns early
(src/index.js:283) — the ledger is *not* rewritten to the walked path
set, contradicting "this holds for every outcome of the confirmation
gate". -/
theorem C6_counterexample :
    (fullUpload ⟨true, [(stateFileName, ⟨5, FileData.ledgerDoc ["gone.txt"]⟩)], []⟩
        ⟨true, [], []⟩ false 100 200 "TS").ledgerWritten = false
    ∧ (loadSyncState (fullUpload ⟨true, [(stateFileName, ⟨5, FileData.ledgerDoc ["gone.txt"]⟩)], []⟩
        ⟨true, [], []⟩ false 100 200 "TS").localFS).knownFiles = ["gone.txt"]
    ∧ (fullUpload ⟨true, [(stateFileName, ⟨5, FileData.ledgerDoc ["gone.txt"]⟩)], []⟩
        ⟨true, [], []⟩ false 100 200 "TS").localPaths = [stateFileName] := by decide

/-- C6 (corrected): when the local-origin deletion candidate set is empty or
the gate consents, the upload phase ends by rewriting the ledger once to
exactly the walked path set and persisting it; but when candidates exist
and the gate declines, `fullUpload` returns early and the durable ledger
is left exactly as it was. -/
theorem C6_ledger_rewrite (lf r : FS) (ans : Bool) (tR tS : Int) (ts : String) :
    ((localDelCands lf r tR ts = [] ∨ ans = true) →
      (fullUpload lf r ans tR tS ts).ledgerWritten = true
      ∧ loadSyncState (fullUpload lf r ans tR tS ts).localFS
          = ⟨(fullUpload lf r ans tR tS ts).localPaths⟩
      ∧ (fullUpload lf r ans tR tS ts).localPaths
          = (lf.files.map (fun q => q.1)).filter (fun p => !hasConflictMarker p))
    ∧ (localDelCands lf r tR ts ≠ [] → ans = false →
      (fullUpload lf r ans tR tS ts).ledgerWritten = false
      ∧ loadSyncState (fullUpload lf r ans tR tS ts).localFS = loadSyncState lf) := by
  have hwalk : (uploadWalk lf r tR ts).localPaths
      = (lf.files.map (fun q => q.1)).filter (fun p => !hasConflictMarker p) := by
    unfold uploadWalk
    rw [foldl_uploadStep_localPaths]
    rfl
  constructor
  · intro h
    unfold fullUpload
    dsimp only
    split
    · exfalso
      rcases h with h | h <;> simp_all
    · refine ⟨rfl, ?_, hwalk⟩
      rw [loadSyncState_saveSyncState]
  · intro hne hans
    unfold fullUpload
    dsimp only
    split
    · refine ⟨rfl, ?_⟩
      unfold uploadWalk
      rw [foldl_uploadStep_loadSyncState]
    · exfalso
      have hlen := List.length_pos.mpr hne
      simp_all

/-- Witness for C6 on a world with no deletion candidates. -/
theorem C6_ledger_rewrite_witness :
    (fullUpload ⟨true, [("a.txt", ⟨0, FileData.bytes 1⟩)], []⟩ ⟨true, [], []⟩
        true 1 2 "T").ledgerWritten = true
    ∧ loadSyncState (fullUpload ⟨true, [("a.txt", ⟨0, FileData.bytes 1⟩)], []⟩
        ⟨true, [], []⟩ true 1 2 "T").localFS
      = ⟨(fullUpload ⟨true, [("a.txt", ⟨0, FileData.bytes 1⟩)], []⟩ ⟨true, [], []⟩
        true 1 2 "T").localPaths⟩
    ∧ (fullUpload ⟨true, [("a.txt", ⟨0, FileData.bytes 1⟩)], []⟩ ⟨true, [], []⟩
        true 1 2 "T").localPaths
      = ((⟨true, [("a.txt", ⟨0, FileData.bytes 1⟩)], []⟩ : FS).files.map
          (fun q => q.1)).filter (fun p => !hasConflictMarker p) :=
  (C6_ledger_rewrite ⟨true, [("a.txt", ⟨0, FileData.bytes 1⟩)], []⟩ ⟨true, [], []⟩
    true 1 2 "T").1 (Or.inr rfl)

/-! ## The download walk: per-step facts -/

/-- Each download step only ever appends the walked (non-marker) path to the
download log. -/
theorem downloadStep_downloads (ts : String) (tArt : Int) (ctx : DownloadCtx)
    (pr : String × Entry) (q : String)
    (hq : q ∈ (downloadStep ts tArt ctx pr).downloads) :
    q ∈ ctx.downloads ∨ (q = pr.1 ∧ hasConflictMarker pr.1 = false) := by
  unfold downloadStep at hq
  split at hq
  · exact Or.inl hq
  next hmark =>
    have hm : hasConflictMarker pr.1 = false := by simpa using hmark
    dsimp only at hq
    split at hq
    · split at hq
      · exact Or.inl hq
      · exact Or.inl hq
    · rcases List.mem_append.mp hq with h | h
      · exact Or.inl h
      · exact Or.inr ⟨List.mem_singleton.mp h, hm⟩

/-- Marker paths are never downloaded. -/
theorem foldl_downloadStep_downloads_marker (ts : String) (tArt : Int)
    (L : List (String × Entry)) (ctx : DownloadCtx) (q : String)
    (hm : hasConflictMarker q = true) (h0 : q ∉ ctx.downloads) :
    q ∉ (L.foldl (downloadStep ts tArt) ctx).downloads := by
  induction L generalizing ctx with
  | nil => exact h0
  | cons a as ih =>
      rw [List.foldl_cons]
      refine ih _ (fun hq => ?_)
      rcases downloadStep_downloads ts tArt ctx a q hq with h | ⟨rfl, hf⟩
      · exact h0 h
      · rw [hm] at hf
        cases hf

/-! ## Branch-shape lemmas for the reconciler and upload phase -/

theorem reconcile_candFiles_cases (lf r : FS) (skip0 : Option (List String × List String))
    (ans : Bool) (t : Int) :
    (reconcileRemoteDeletions lf r skip0 ans t).candFiles = []
    ∨ (reconcileRemoteDeletions lf r skip0 ans t).candFiles = remoteDelFileCands lf r := by
  unfold reconcileRemoteDeletions
  dsimp only
  split
  · split
    · exact Or.inr rfl
    · split
      · exact Or.inr rfl
      · exact Or.inr rfl
  · exact Or.inl rfl

theorem reconcile_candDirs_cases (lf r : FS) (skip0 : Option (List String × List String))
    (ans : Bool) (t : Int) :
    (reconcileRemoteDeletions lf r skip0 ans t).candDirs = []
    ∨ (reconcileRemoteDeletions lf r skip0 ans t).candDirs = remoteDelDirCands lf r := by
  unfold reconcileRemoteDeletions
  dsimp only
  split
  · split
    · exact Or.inr rfl
    · split
      · exact Or.inr rfl
      · exact Or.inr rfl
  · exact Or.inl rfl

theorem reconcile_savedLedger_cases (lf r : FS)
    (skip0 : Option (List String × List String)) (ans : Bool) (t : Int) :
    (reconcileRemoteDeletions lf r skip0 ans t).savedLedger = none
    ∨ (reconcileRemoteDeletions lf r skip0 ans t).savedLedger
      = some ((loadSyncState lf).knownFiles.filter
          (fun k => !(remoteDelFileCands lf r).contains k)) := by
  unfold reconcileRemoteDeletions
  dsimp only
  split
  · split
    · exact Or.inl rfl
    · split
      · exact Or.inl rfl
      · exact Or.inr rfl
  · exact Or.inl rfl

theorem fullUpload_uploads_eq (lf r : FS) (ans : Bool) (tR tS : Int) (ts : String) :
    (fullUpload lf r ans tR tS ts).uploads = (uploadWalk lf r tR ts).uploads := by
  unfold fullUpload
  dsimp only
  split <;> rfl

theorem fullUpload_localPaths_eq (lf r : FS) (ans : Bool) (tR tS : Int) (ts : String) :
    (fullUpload lf r ans tR tS ts).localPaths = (uploadWalk lf r tR ts).localPaths := by
  unfold fullUpload
  dsimp only
  split <;> rfl

theorem fullUpload_toDelete_eq (lf r : FS) (ans : Bool) (tR tS : Int) (ts : String) :
    (fullUpload lf r ans tR tS ts).toDelete = localDelCands lf r tR ts := by
  unfold fullUpload
  dsimp only
  split <;> rfl

/-! ## Marker membership is impossible in every candidate set -/

theorem not_mem_remoteDelFileCands_marker (lf r : FS) (p : String)
    (hm : hasConflictMarker p = true) : p ∉ remoteDelFileCands lf r := by
  intro h
  have := (List.mem_filter.mp h).2
  rw [hm] at this
  simp at this

theorem not_mem_remoteDelDirCands_marker (lf r : FS) (p : String)
    (hm : hasConflictMarker p = true) : p ∉ remoteDelDirCands lf r := by
  intro h
  have h1 := (List.mem_filter.mp h).1
  have := (List.mem_filter.mp h1).2
  rw [hm] at this
  simp at this

theorem not_mem_localDelCands_marker (lf r : FS) (tR : Int) (ts : String) (p : String)
    (hm : hasConflictMarker p = true) : p ∉ localDelCands lf r tR ts := by
  intro h
  have := (List.mem_filter.mp h).2
  rw [hm] at this
  simp at this

theorem not_mem_uploadWalk_localPaths_marker (lf r : FS) (tR : Int) (ts : String)
    (p : String) (hm : hasConflictMarker p = true) :
    p ∉ (uploadWalk lf r tR ts).localPaths := by
  intro h
  unfold uploadWalk at h
  rw [foldl_uploadStep_localPaths] at h
  dsimp only at h
  rw [List.nil_append] at h
  have := (List.mem_filter.mp h).2
  rw [hm] at this
  simp at this

/-- C7 (confirmed): conflict-marker exclusion.  A path carrying the marker
token never appears in the upload log, the download log, the
remote-origin file or directory candidate sets, or the local-origin
deletion candidate set of a cycle; it is never in the path set the
upload phase persists as the new ledger, and the set persisted by the
deletion phase only shrinks the previous ledger — so the cycle never
adds a marker path to the baseline ledger. -/
theorem C7_conflict_marker_exclusion (w : World) (pr : CycleParams) (p : String)
    (hm : hasConflictMarker p = true) :
    p ∉ (performSyncCycle w pr).2.uploads
    ∧ p ∉ (performSyncCycle w pr).2.downloads
    ∧ p ∉ (performSyncCycle w pr).2.candRemoteFiles
    ∧ p ∉ (performSyncCycle w pr).2.candRemoteDirs
    ∧ p ∉ (performSyncCycle w pr).2.toDeleteRemote
    ∧ p ∉ (performSyncCycle w pr).2.localPaths
    ∧ (∀ ks : List String, (performSyncCycle w pr).2.reconcileLedger = some ks →
        p ∈ ks → p ∈ (loadSyncState w.localFS).knownFiles) := by
  unfold performSyncCycle
  dsimp only
  refine ⟨?_, ?_, ?_, ?_, ?_, ?_, ?_⟩
  · rw [fullUpload_uploads_eq]
    unfold uploadWalk
    exact foldl_uploadStep_uploads_marker _ _ _ _ p hm (by simp)
  · unfold fullDownload
    exact foldl_downloadStep_downloads_marker _ _ _ _ p hm (by simp)
  · rcases reconcile_candFiles_cases w.localFS w.remote none pr.answerRemote pr.tSaveR
      with h | h <;> rw [h]
    · simp
    · exact not_mem_remoteDelFileCands_marker _ _ p hm
  · rcases reconcile_candDirs_cases w.localFS w.remote none pr.answerRemote pr.tSaveR
      with h | h <;> rw [h]
    · simp
    · exact not_mem_remoteDelDirCands_marker _ _ p hm
  · rw [fullUpload_toDelete_eq]
    exact not_mem_localDelCands_marker _ _ _ _ p hm
  · rw [fullUpload_localPaths_eq]
    exact not_mem_uploadWalk_localPaths_marker _ _ _ _ p hm
  · intro ks hks hp
    rcases reconcile_savedLedger_cases w.localFS w.remote none pr.answerRemote pr.tSaveR
      with h | h
    · rw [h] at hks
      cases hks
    · rw [h] at hks
      cases hks
      exact (List.mem_filter.mp hp).1

/-- Witness for C7 at a marker-carrying path on a small world. -/
theorem C7_conflict_marker_exclusion_witness :
    "a.conflict-remote-T" ∉ (performSyncCycle
      ⟨⟨true, [("a.conflict-remote-T", ⟨0, FileData.bytes 1⟩)], []⟩, ⟨true, [], []⟩⟩
      ⟨true, true, 1, 2, 3, 4, "T"⟩).2.uploads :=
  (C7_conflict_marker_exclusion
    ⟨⟨true, [("a.conflict-remote-T", ⟨0, FileData.bytes 1⟩)], []⟩, ⟨true, [], []⟩⟩
    ⟨true, true, 1, 2, 3, 4, "T"⟩ "a.conflict-remote-T" (by decide)).1

/-! ## Generated conflict names always carry the marker -/

theorem listStartsWith_nil (l : List Char) : listStartsWith l [] = true := by
  cases l <;> rfl

theorem listStartsWith_append_self (pat rest : List Char) :
    listStartsWith (pat ++ rest) pat = true := by
  induction pat with
  | nil => simp [listStartsWith_nil]
  | cons a as ih => simp [listStartsWith, ih]

theorem listContainsSub_of_startsWith (l pat : List Char)
    (h : listStartsWith l pat = true) : listContainsSub l pat = true := by
  cases l with
  | nil =>
      cases pat with
      | nil => rfl
      | cons b bs => simp [listStartsWith] at h
  | cons a as =>
      unfold listContainsSub
      rw [h]
      rfl

theorem listContainsSub_append_left (x l pat : List Char)
    (h : listContainsSub l pat = true) : listContainsSub (x ++ l) pat = true := by
  induction x with
  | nil => simpa using h
  | cons a as ih =>
      show listContainsSub (a :: (as ++ l)) pat = true
      unfold listContainsSub
      rw [ih]
      simp

theorem strData_append (a b : String) : (a ++ b).data = a.data ++ b.data := rfl

theorem strAppend_assoc (a b c : String) : (a ++ b) ++ c = a ++ (b ++ c) := by
  apply String.ext
  simp [strData_append]

/-- Anything of the form `a ++ (marker ++ b)` carries the marker. -/
theorem hasConflictMarker_mid (a b : String) :
    hasConflictMarker (a ++ (conflictMarker ++ b)) = true := by
  unfold hasConflictMarker strIncludes
  rw [strData_append, strData_append]
  exact listContainsSub_append_left _ _ _
    (listContainsSub_of_startsWith _ _ (listStartsWith_append_self _ _))

theorem hasConflictMarker_genRemote (p ts : String) :
    hasConflictMarker (generateRemoteConflictName p ts) = true := by
  unfold generateRemoteConflictName
  rw [strAppend_assoc (p ++ conflictMarker), strAppend_assoc p]
  exact hasConflictMarker_mid p _

theorem hasConflictMarker_candidate (p suffix ts : String) (i : Nat) :
    hasConflictMarker (conflictCandidateName p suffix ts i) = true := by
  unfold conflictCandidateName
  split
  · rw [strAppend_assoc (p ++ conflictMarker ++ suffix), strAppend_assoc (p ++ conflictMarker),
      strAppend_assoc p]
    exact hasConflictMarker_mid p _
  · rw [strAppend_assoc (p ++ conflictMarker ++ suffix ++ "-" ++ ts),
      strAppend_assoc (p ++ conflictMarker ++ suffix ++ "-"),
      strAppend_assoc (p ++ conflictMarker ++ suffix), strAppend_assoc (p ++ conflictMarker),
      strAppend_assoc p]
    exact hasConflictMarker_mid p _

theorem hasConflictMarker_genConflict (fs : FS) (p suffix ts : String) :
    hasConflictMarker (generateConflictName fs p suffix ts) = true := by
  unfold generateConflictName
  generalize fs.files.length + 1 = fuel
  induction fuel generalizing fs with
  | zero => exact hasConflictMarker_candidate p suffix ts 0
  | succ n ih =>
      show hasConflictMarker (genConflictAux fs p suffix ts (n + 1) 0) = true
      clear ih
      suffices h : ∀ (i : Nat) (m : Nat),
          hasConflictMarker (genConflictAux fs p suffix ts m i) = true by exact h 0 (n + 1)
      intro i m
      induction m generalizing i with
      | zero => exact hasConflictMarker_candidate p suffix ts i
      | succ k ihk =>
          unfold genConflictAux
          dsimp only
          split
          · exact ihk (i + 1)
          · exact hasConflictMarker_candidate p suffix ts i

/-! ## mkdirp folds preserve files -/

theorem foldl_mkdirp_files (ds : List String) (fs : FS) :
    ((ds.foldl (fun fs d => fs.mkdirp d) fs)).files = fs.files := by
  induction ds generalizing fs with
  | nil => rfl
  | cons a as ih => rw [List.foldl_cons, ih, files_mkdirp]

theorem foldl_mkdirp_statFile (ds : List String) (fs : FS) (p : String) :
    ((ds.foldl (fun fs d => fs.mkdirp d) fs)).statFile p = fs.statFile p := by
  unfold FS.statFile
  rw [foldl_mkdirp_files]

/-! ## C2: local wins with preservation -/

/-- A world with a single file present on both sides. -/
def c2World (name : String) (lt rt : Int) (lc rc : FileData) : World :=
  ⟨⟨true, [(name, ⟨lt, lc⟩)], []⟩, ⟨true, [(name, ⟨rt, rc⟩)], []⟩⟩

/-- C2 counterexample: remote `a.txt` is newer than local by 10000 ms
(beyond the 5000 ms tolerance), yet a full cycle produces *zero* local
conflict artifacts — the upload phase runs first, backs the remote
version up on the *remote* side, uploads the local content and aligns
the local mtime, so the download phase sees the sides as converged and
never creates the claimed local artifact. -/
theorem C2_counterexample :
    5000 < (10000 : Int) - 0
    ∧ (performSyncCycle (c2World "a.txt" 0 10000 (FileData.bytes 1) (FileData.bytes 2))
        ⟨true, true, 20000, 19999, 20001, 20002, "TS"⟩).1.localFS.files.filter
          (fun q => hasConflictMarker q.1) = []
    ∧ ((performSyncCycle (c2World "a.txt" 0 10000 (FileData.bytes 1) (FileData.bytes 2))
        ⟨true, true, 20000, 19999, 20001, 20002, "TS"⟩).1.localFS.statFile
          "a.txt").map (fun e => e.data) = some (FileData.bytes 1) := by decide

/-- C2 (corrected): local wins with preservation, with the single artifact
on the remote side.  For a path present on both sides whose remote mtime
exceeds the local mtime by more than the tolerance, a full cycle leaves
the local content unchanged and produces exactly one conflict artifact
named with marker `remote` — created on the *remote* side by the upload
phase, which first copies the losing remote version to the artifact
(the artifact holds the old remote content) and then uploads the local
content over the remote file; the upload phase then aligns the local
mtime with the new remote mtime, so the subsequent download phase treats
the sides as converged and creates no local artifact and performs no
download. -/
theorem C2_local_wins_preservation (name : String) (lt rt tR tSR tS tArt : Int)
    (lc rc : FileData) (ansR ansL : Bool) (ts : String)
    (hname : hasConflictMarker name = false)
    (hst : name ≠ stateFileName)
    (hdiff : rt - lt > TIMESTAMP_TOLERANCE) :
    (((performSyncCycle (c2World name lt rt lc rc)
        ⟨ansR, ansL, tR, tSR, tS, tArt, ts⟩).1.localFS.statFile name).map
        (fun e => e.data) = some lc)
    ∧ (performSyncCycle (c2World name lt rt lc rc)
        ⟨ansR, ansL, tR, tSR, tS, tArt, ts⟩).1.remote.statFile
          (generateRemoteConflictName name ts) = some ⟨rt, rc⟩
    ∧ (performSyncCycle (c2World name lt rt lc rc)
        ⟨ansR, ansL, tR, tSR, tS, tArt, ts⟩).1.remote.statFile name = some ⟨tR, lc⟩
    ∧ ((performSyncCycle (c2World name lt rt lc rc)
        ⟨ansR, ansL, tR, tSR, tS, tArt, ts⟩).1.remote.files.filter
          (fun q => hasConflictMarker q.1)).map (fun q => q.1)
        = [generateRemoteConflictName name ts]
    ∧ (performSyncCycle (c2World name lt rt lc rc)
        ⟨ansR, ansL, tR, tSR, tS, tArt, ts⟩).1.localFS.files.filter
          (fun q => hasConflictMarker q.1) = []
    ∧ (performSyncCycle (c2World name lt rt lc rc)
        ⟨ansR, ansL, tR, tSR, tS, tArt, ts⟩).2.uploads = [name]
    ∧ (performSyncCycle (c2World name lt rt lc rc)
        ⟨ansR, ansL, tR, tSR, tS, tArt, ts⟩).2.downloads = []
    ∧ (performSyncCycle (c2World name lt rt lc rc)
        ⟨ansR, ansL, tR, tSR, tS, tArt, ts⟩).2.conflictsSaved = [] := by
  have hT : TIMESTAMP_TOLERANCE = (5000 : Int) := rfl
  have hstm : hasConflictMarker stateFileName = false := by decide
  have hbkm : hasConflictMarker (generateRemoteConflictName name ts) = true :=
    hasConflictMarker_genRemote name ts
  have hbkne : generateRemoteConflictName name ts ≠ name := by
    intro h
    rw [h, hname] at hbkm
    cases hbkm
  have hbkns : generateRemoteConflictName name ts ≠ stateFileName := by
    intro h
    rw [h, hstm] at hbkm
    cases hbkm
  -- phase 1: the reconciler is a no-op (empty ledger, no local dirs)
  have hstatlf : (⟨true, [(name, ⟨lt, lc⟩)], []⟩ : FS).statFile stateFileName = none := by
    unfold FS.statFile
    rw [List.find?_cons_of_neg _ (by simp [hst])]
    rfl
  have hload : loadSyncState ⟨true, [(name, ⟨lt, lc⟩)], []⟩ = ⟨[]⟩ := by
    unfold loadSyncState
    rw [hstatlf]
  have htd : remoteDelFileCands ⟨true, [(name, ⟨lt, lc⟩)], []⟩
      ⟨true, [(name, ⟨rt, rc⟩)], []⟩ = [] := by
    unfold remoteDelFileCands
    rw [hload]
    rfl
  have hcd : remoteDelDirCands ⟨true, [(name, ⟨lt, lc⟩)], []⟩
      ⟨true, [(name, ⟨rt, rc⟩)], []⟩ = [] := rfl
  have hrec : reconcileRemoteDeletions ⟨true, [(name, ⟨lt, lc⟩)], []⟩
      ⟨true, [(name, ⟨rt, rc⟩)], []⟩ none ansR tSR
      = ⟨⟨true, [(name, ⟨lt, lc⟩)], []⟩, none, [], [], [], [], false, false, none⟩ := by
    unfold reconcileRemoteDeletions
    dsimp only
    rw [htd, hcd]
    rfl
  -- phase 2: the upload walk backs up remote and uploads local
  have hstatRem : (⟨true, [(name, ⟨rt, rc⟩)], []⟩ : FS).statFile name = some ⟨rt, rc⟩ := by
    unfold FS.statFile
    rw [List.find?_cons_of_pos _ (by simp)]
    rfl
  have hc1 : ¬(lt - rt > TIMESTAMP_TOLERANCE) := by
    rw [hT]
    rw [hT] at hdiff
    omega
  have hc2 : lt - rt < -TIMESTAMP_TOLERANCE := by
    rw [hT]
    rw [hT] at hdiff
    omega
  have hstep : uploadStep tR ts
      ⟨⟨true, [(name, ⟨lt, lc⟩)], []⟩, ⟨true, [(name, ⟨rt, rc⟩)], []⟩, [], [], []⟩
      (name, ⟨lt, lc⟩)
      = ⟨FS.setMtime ⟨true, [(name, ⟨lt, lc⟩)], []⟩ name tR,
        FS.writeFile
          (ensureRemoteDir
            (FS.writeFile ⟨true, [(name, ⟨rt, rc⟩)], []⟩
              (generateRemoteConflictName name ts) ⟨rt, rc⟩)
            (parentDir name))
          name ⟨tR, lc⟩,
        [name], [name], [generateRemoteConflictName name ts]⟩ := by
    unfold uploadStep
    rw [if_neg (by simp [hname])]
    dsimp only
    rw [hstatRem]
    dsimp only
    rw [if_neg hc1, if_pos hc2]
    simp
  have hwalk : uploadWalk ⟨true, [(name, ⟨lt, lc⟩)], []⟩ ⟨true, [(name, ⟨rt, rc⟩)], []⟩ tR ts
      = ⟨FS.setMtime ⟨true, [(name, ⟨lt, lc⟩)], []⟩ name tR,
        FS.writeFile
          (ensureRemoteDir
            (FS.writeFile ⟨true, [(name, ⟨rt, rc⟩)], []⟩
              (generateRemoteConflictName name ts) ⟨rt, rc⟩)
            (parentDir name))
          name ⟨tR, lc⟩,
        [name], [name], [generateRemoteConflictName name ts]⟩ := by
    unfold uploadWalk
    show List.foldl (uploadStep tR ts) _ [(name, ⟨lt, lc⟩)] = _
    rw [List.foldl_cons, hstep, List.foldl_nil]
  have hlcands : localDelCands ⟨true, [(name, ⟨lt, lc⟩)], []⟩
      ⟨true, [(name, ⟨rt, rc⟩)], []⟩ tR ts = [] := by
    unfold localDelCands
    rw [hload]
    rfl
  have hup : fullUpload ⟨true, [(name, ⟨lt, lc⟩)], []⟩ ⟨true, [(name, ⟨rt, rc⟩)], []⟩
      ansL tR tS ts
      = ⟨saveSyncState (FS.setMtime ⟨true, [(name, ⟨lt, lc⟩)], []⟩ name tR) [name] tS,
        FS.writeFile
          (ensureRemoteDir
            (FS.writeFile ⟨true, [(name, ⟨rt, rc⟩)], []⟩
              (generateRemoteConflictName name ts) ⟨rt, rc⟩)
            (parentDir name))
          name ⟨tR, lc⟩,
        [name], [name], [generateRemoteConflictName name ts], [], [], true⟩ := by
    unfold fullUpload
    dsimp only
    rw [hlcands, hwalk]
    rfl
  -- explicit file lists after the upload phase
  have hsm : FS.setMtime ⟨true, [(name, ⟨lt, lc⟩)], []⟩ name tR
      = ⟨true, [(name, ⟨tR, lc⟩)], []⟩ := by
    unfold FS.setMtime
    simp
  have hl2 : saveSyncState (FS.setMtime ⟨true, [(name, ⟨lt, lc⟩)], []⟩ name tR) [name] tS
      = ⟨true, [(name, ⟨tR, lc⟩), (stateFileName, ⟨tS, FileData.ledgerDoc [name]⟩)], []⟩ := by
    rw [hsm]
    unfold saveSyncState FS.writeFile
    simp [hst]
  have hremfiles : (FS.writeFile
      (ensureRemoteDir
        (FS.writeFile ⟨true, [(name, ⟨rt, rc⟩)], []⟩
          (generateRemoteConflictName name ts) ⟨rt, rc⟩)
        (parentDir name))
      name ⟨tR, lc⟩).files
      = [(generateRemoteConflictName name ts, ⟨rt, rc⟩), (name, ⟨tR, lc⟩)] := by
    have hnbk : name ≠ generateRemoteConflictName name ts := fun h => hbkne h.symm
    unfold FS.writeFile
    dsimp only
    rw [files_ensureRemoteDir]
    dsimp only
    simp [hbkne, hnbk]
  -- phase 3: the download walk does nothing
  have hstatL2 : (saveSyncState (FS.setMtime ⟨true, [(name, ⟨lt, lc⟩)], []⟩ name tR)
      [name] tS).statFile name = some ⟨tR, lc⟩ := by
    rw [hl2]
    unfold FS.statFile
    rw [List.find?_cons_of_pos _ (by simp)]
    rfl
  have hstep1 : ∀ ctx : DownloadCtx, downloadStep ts tArt ctx
      (generateRemoteConflictName name ts, ⟨rt, rc⟩) = ctx := by
    intro ctx
    unfold downloadStep
    rw [if_pos hbkm]
  have hstep2 : downloadStep ts tArt
      ⟨((FS.writeFile
          (ensureRemoteDir
            (FS.writeFile ⟨true, [(name, ⟨rt, rc⟩)], []⟩
              (generateRemoteConflictName name ts) ⟨rt, rc⟩)
            (parentDir name))
          name ⟨tR, lc⟩).dirs.filter (fun d => !hasConflictMarker d)).foldl
        (fun fs d => fs.mkdirp d)
        (saveSyncState (FS.setMtime ⟨true, [(name, ⟨lt, lc⟩)], []⟩ name tR) [name] tS),
        [], []⟩
      (name, ⟨tR, lc⟩)
      = ⟨((FS.writeFile
          (ensureRemoteDir
            (FS.writeFile ⟨true, [(name, ⟨rt, rc⟩)], []⟩
              (generateRemoteConflictName name ts) ⟨rt, rc⟩)
            (parentDir name))
          name ⟨tR, lc⟩).dirs.filter (fun d => !hasConflictMarker d)).foldl
        (fun fs d => fs.mkdirp d)
        (saveSyncState (FS.setMtime ⟨true, [(name, ⟨lt, lc⟩)], []⟩ name tR) [name] tS),
        [], []⟩ := by
    unfold downloadStep
    rw [if_neg (by simp [hname])]
    dsimp only
    rw [foldl_mkdirp_statFile, hstatL2]
    dsimp only
    rw [if_neg (by rw [hT]; omega)]
  have hdown : fullDownload
      (saveSyncState (FS.setMtime ⟨true, [(name, ⟨lt, lc⟩)], []⟩ name tR) [name] tS)
      (FS.writeFile
        (ensureRemoteDir
          (FS.writeFile ⟨true, [(name, ⟨rt, rc⟩)], []⟩
            (generateRemoteConflictName name ts) ⟨rt, rc⟩)
          (parentDir name))
        name ⟨tR, lc⟩) ts tArt
      = ⟨((FS.writeFile
          (ensureRemoteDir
            (FS.writeFile ⟨true, [(name, ⟨rt, rc⟩)], []⟩
              (generateRemoteConflictName name ts) ⟨rt, rc⟩)
            (parentDir name))
          name ⟨tR, lc⟩).dirs.filter (fun d => !hasConflictMarker d)).foldl
        (fun fs d => fs.mkdirp d)
        (saveSyncState (FS.setMtime ⟨true, [(name, ⟨lt, lc⟩)], []⟩ name tR) [name] tS),
        [], []⟩ := by
    unfold fullDownload
    rw [hremfiles, List.foldl_cons, hstep1, List.foldl_cons, hstep2, List.foldl_nil]
  -- assemble the cycle
  have hcycle : performSyncCycle (c2World name lt rt lc rc) ⟨ansR, ansL, tR, tSR, tS, tArt, ts⟩
      = (⟨((FS.writeFile
            (ensureRemoteDir
              (FS.writeFile ⟨true, [(name, ⟨rt, rc⟩)], []⟩
                (generateRemoteConflictName name ts) ⟨rt, rc⟩)
              (parentDir name))
            name ⟨tR, lc⟩).dirs.filter (fun d => !hasConflictMarker d)).foldl
          (fun fs d => fs.mkdirp d)
          (saveSyncState (FS.setMtime ⟨true, [(name, ⟨lt, lc⟩)], []⟩ name tR) [name] tS),
          FS.writeFile
            (ensureRemoteDir
              (FS.writeFile ⟨true, [(name, ⟨rt, rc⟩)], []⟩
                (generateRemoteConflictName name ts) ⟨rt, rc⟩)
              (parentDir name))
            name ⟨tR, lc⟩⟩,
        ⟨[], [], [], none, [name], [name], [generateRemoteConflictName name ts],
          [], [], true, [], []⟩) := by
    unfold performSyncCycle c2World
    dsimp only
    rw [hrec]
    dsimp only
    rw [hup]
    dsimp only
    rw [hdown]
  rw [hcycle]
  dsimp only
  refine ⟨?_, ?_, ?_, ?_, ?_, rfl, rfl, rfl⟩
  · rw [foldl_mkdirp_statFile, hstatL2]
    rfl
  · rw [statFile_writeFile_ne _ _ hbkne, statFile_ensureRemoteDir, statFile_writeFile_self]
  · rw [statFile_writeFile_self]
  · rw [hremfiles]
    simp [hbkm, hname]
  · rw [foldl_mkdirp_files, hl2]
    simp [hname, hstm]

/-- Witness for C2 at concrete values. -/
theorem C2_local_wins_preservation_witness :
    ((performSyncCycle (c2World "a.txt" 0 10000 (FileData.bytes 1) (FileData.bytes 2))
        ⟨true, true, 20000, 19999, 20001, 20002, "TS"⟩).1.localFS.statFile
        "a.txt").map (fun e => e.data) = some (FileData.bytes 1) :=
  (C2_local_wins_preservation "a.txt" 0 10000 20000 19999 20001 20002
    (FileData.bytes 1) (FileData.bytes 2) true true "TS"
    (by decide) (by decide) (by decide)).1

/-! ## Toward C4: per-step preservation facts of the upload walk -/

/-- A step never disturbs other local files. -/
theorem uploadStep_local_preserve (tR : Int) (ts : String) (ctx : UploadCtx)
    (pe : String × Entry) (q : String) (hne : q ≠ pe.1) :
    (uploadStep tR ts ctx pe).localFS.statFile q = ctx.localFS.statFile q := by
  rcases uploadStep_localFS tR ts ctx pe with h | h <;> rw [h]
  rw [statFile_setMtime, if_neg hne]

/-- A step writes remotely only at its own path and at marker-carrying backup
names. -/
theorem uploadStep_remote_preserve (tR : Int) (ts : String) (ctx : UploadCtx)
    (pe : String × Entry) (q : String) (hq : hasConflictMarker q = false)
    (hne : q ≠ pe.1) :
    (uploadStep tR ts ctx pe).remote.statFile q = ctx.remote.statFile q := by
  have hbk : q ≠ generateRemoteConflictName pe.1 ts := by
    intro h
    rw [h, hasConflictMarker_genRemote] at hq
    cases hq
  unfold uploadStep
  split
  · rfl
  · dsimp only
    split
    · rw [statFile_writeFile_ne _ _ hne, statFile_ensureRemoteDir]
    · split
      · rw [statFile_writeFile_ne _ _ hne, statFile_ensureRemoteDir]
      · split
        · rw [statFile_writeFile_ne _ _ hne, statFile_ensureRemoteDir,
            statFile_writeFile_ne _ _ hbk]
        · rfl

/-- Remote directories only accumulate during the walk. -/
theorem uploadStep_remote_dirs_mono (tR : Int) (ts : String) (ctx : UploadCtx)
    (pe : String × Entry) (x : String) (hx : x ∈ ctx.remote.dirs) :
    x ∈ (uploadStep tR ts ctx pe).remote.dirs := by
  have hens : ∀ fs : FS, x ∈ fs.dirs → x ∈ (ensureRemoteDir fs (parentDir pe.1)).dirs := by
    intro fs h
    unfold ensureRemoteDir
    split
    · exact h
    · exact mem_dirs_mkdirp fs _ x h
  unfold uploadStep
  split
  · exact hx
  · dsimp only
    split
    · exact hens _ hx
    · split
      · exact hens _ hx
      · split
        · exact hens _ hx
        · exact hx

/-- The walk leaves local file content (and presence) intact; only mtimes
move. -/
theorem uploadStep_local_data (tR : Int) (ts : String) (ctx : UploadCtx)
    (pe : String × Entry) (q : String) :
    ((uploadStep tR ts ctx pe).localFS.statFile q).map (fun e => e.data)
      = (ctx.localFS.statFile q).map (fun e => e.data) := by
  rcases uploadStep_localFS tR ts ctx pe with h | h <;> rw [h]
  rw [statFile_setMtime_data]

/-- What a step does at its own (non-marker) path, keyed on the remote
state it observed. -/
theorem uploadStep_self (tR : Int) (ts : String) (ctx : UploadCtx)
    (pe : String × Entry) (hm : hasConflictMarker pe.1 = false) :
    (∀ r : Entry, ctx.remote.statFile pe.1 = some r →
      -TIMESTAMP_TOLERANCE ≤ pe.2.mtime - r.mtime → pe.2.mtime - r.mtime ≤ TIMESTAMP_TOLERANCE →
      uploadStep tR ts ctx pe = { ctx with localPaths := ctx.localPaths ++ [pe.1] })
    ∧ ((ctx.remote.statFile pe.1 = none
        ∨ (∃ r : Entry, ctx.remote.statFile pe.1 = some r
            ∧ (pe.2.mtime - r.mtime > TIMESTAMP_TOLERANCE
              ∨ pe.2.mtime - r.mtime < -TIMESTAMP_TOLERANCE))) →
      ((uploadStep tR ts ctx pe).localFS.statFile pe.1
          = (ctx.localFS.statFile pe.1).map (fun e => ⟨tR, e.data⟩)
        ∧ (uploadStep tR ts ctx pe).remote.statFile pe.1 = some ⟨tR, pe.2.data⟩
        ∧ ∀ d ∈ ancestorDirs pe.1, d ∈ (uploadStep tR ts ctx pe).remote.dirs)) := by
  have hdirs : ∀ (rfs : FS) (d : String), d ∈ ancestorDirs pe.1 →
      d ∈ (ensureRemoteDir rfs (parentDir pe.1)).dirs := by
    intro rfs d hd
    unfold ancestorDirs at hd
    unfold ensureRemoteDir
    by_cases hg : (parentDir pe.1 == "" || parentDir pe.1 == "/"
        || parentDir pe.1 == ".") = true
    · rw [if_pos hg] at hd
      cases hd
    · rw [if_neg hg] at hd
      rw [if_neg hg]
      have h0 : (parentDir pe.1 == "") = false :=
        (Bool.or_eq_false_iff.mp
          (Bool.or_eq_false_iff.mp (Bool.eq_false_iff.mpr hg)).1).1
      exact mem_dirs_mkdirp_of_prefix rfs _ d h0 hd
  constructor
  · intro r hr hlo hhi
    unfold uploadStep
    rw [if_neg (by simp [hm])]
    dsimp only
    rw [hr]
    dsimp only
    rw [if_neg (by omega), if_neg (by omega)]
  · intro hcase
    unfold uploadStep
    rw [if_neg (by simp [hm])]
    dsimp only
    rcases hcase with hnone | ⟨r, hr, hout⟩
    · rw [hnone]
      dsimp only
      refine ⟨by rw [statFile_setMtime, if_pos rfl], statFile_writeFile_self _ _ _, ?_⟩
      intro d hd
      rw [dirs_writeFile]
      exact hdirs _ d hd
    · rw [hr]
      dsimp only
      rcases hout with hgt | hlt
      · rw [if_pos hgt]
        refine ⟨by rw [statFile_setMtime, if_pos rfl], statFile_writeFile_self _ _ _, ?_⟩
        intro d hd
        rw [dirs_writeFile]
        exact hdirs _ d hd
      · rw [if_neg (by
            have hT : TIMESTAMP_TOLERANCE = (5000 : Int) := rfl
            rw [hT] at hlt ⊢
            omega),
          if_pos hlt]
        refine ⟨by rw [statFile_setMtime, if_pos rfl], statFile_writeFile_self _ _ _, ?_⟩
        intro d hd
        rw [dirs_writeFile]
        exact hdirs _ d hd

/-! ## Fold-level facts of the upload walk -/

theorem foldl_upload_local_preserve (tR : Int) (ts : String) (L : List (String × Entry))
    (ctx : UploadCtx) (q : String) (h : ∀ pe ∈ L, pe.1 ≠ q) :
    (L.foldl (uploadStep tR ts) ctx).localFS.statFile q = ctx.localFS.statFile q := by
  induction L generalizing ctx with
  | nil => rfl
  | cons a as ih =>
      rw [List.foldl_cons, ih _ (fun pe hp => h pe (List.mem_cons_of_mem a hp)),
        uploadStep_local_preserve _ _ _ _ _ (fun hq => h a (List.mem_cons_self a as) hq.symm)]

theorem foldl_upload_remote_preserve (tR : Int) (ts : String) (L : List (String × Entry))
    (ctx : UploadCtx) (q : String) (hq : hasConflictMarker q = false)
    (h : ∀ pe ∈ L, pe.1 ≠ q) :
    (L.foldl (uploadStep tR ts) ctx).remote.statFile q = ctx.remote.statFile q := by
  induction L generalizing ctx with
  | nil => rfl
  | cons a as ih =>
      rw [List.foldl_cons, ih _ (fun pe hp => h pe (List.mem_cons_of_mem a hp)),
        uploadStep_remote_preserve _ _ _ _ _ hq
          (fun hh => h a (List.mem_cons_self a as) hh.symm)]

theorem foldl_upload_remote_dirs_mono (tR : Int) (ts : String)
    (L : List (String × Entry)) (ctx : UploadCtx) (x : String)
    (hx : x ∈ ctx.remote.dirs) : x ∈ (L.foldl (uploadStep tR ts) ctx).remote.dirs := by
  induction L generalizing ctx with
  | nil => exact hx
  | cons a as ih =>
      rw [List.foldl_cons]
      exact ih _ (uploadStep_remote_dirs_mono tR ts ctx a x hx)

theorem foldl_upload_local_data (tR : Int) (ts : String) (L : List (String × Entry))
    (ctx : UploadCtx) (q : String) :
    ((L.foldl (uploadStep tR ts) ctx).localFS.statFile q).map (fun e => e.data)
      = (ctx.localFS.statFile q).map (fun e => e.data) := by
  induction L generalizing ctx with
  | nil => rfl
  | cons a as ih => rw [List.foldl_cons, ih, uploadStep_local_data]

theorem foldl_upload_uploads_keys (tR : Int) (ts : String) (L : List (String × Entry))
    (ctx : UploadCtx) (q : String) (hq : q ∈ (L.foldl (uploadStep tR ts) ctx).uploads) :
    q ∈ ctx.uploads ∨ ∃ pe ∈ L, pe.1 = q ∧ hasConflictMarker q = false := by
  induction L generalizing ctx with
  | nil => exact Or.inl hq
  | cons a as ih =>
      rw [List.foldl_cons] at hq
      rcases ih _ hq with h | ⟨pe, hpe, rfl, hm⟩
      · rcases uploadStep_uploads tR ts ctx a q h with h2 | ⟨rfl, hm⟩
        · exact Or.inl h2
        · exact Or.inr ⟨a, List.mem_cons_self a as, rfl, hm⟩
      · exact Or.inr ⟨pe, List.mem_cons_of_mem a hpe, rfl, hm⟩

/-- `f ∘ f = f` for the mtime-overwrite map. -/
theorem map_tRdata_idem (tR : Int) (o : Option Entry) :
    ((o.map (fun e => (⟨tR, e.data⟩ : Entry))).map (fun e => (⟨tR, e.data⟩ : Entry)))
      = o.map (fun e => (⟨tR, e.data⟩ : Entry)) := by
  cases o <;> rfl

/-- After the walk every local file either kept its entry or had only its
mtime aligned to `tR`. -/
theorem foldl_upload_local_or (tR : Int) (ts : String) (L : List (String × Entry))
    (ctx : UploadCtx) (q : String) :
    (L.foldl (uploadStep tR ts) ctx).localFS.statFile q = ctx.localFS.statFile q
    ∨ (L.foldl (uploadStep tR ts) ctx).localFS.statFile q
        = (ctx.localFS.statFile q).map (fun e => ⟨tR, e.data⟩) := by
  induction L generalizing ctx with
  | nil => exact Or.inl rfl
  | cons a as ih =>
      rw [List.foldl_cons]
      have hstep : (uploadStep tR ts ctx a).localFS.statFile q = ctx.localFS.statFile q
          ∨ (uploadStep tR ts ctx a).localFS.statFile q
            = (ctx.localFS.statFile q).map (fun e => ⟨tR, e.data⟩) := by
        rcases uploadStep_localFS tR ts ctx a with h | h <;> rw [h]
        · exact Or.inl rfl
        · rw [statFile_setMtime]
          by_cases hqa : q = a.1
          · rw [if_pos hqa]
            exact Or.inr rfl
          · rw [if_neg hqa]
            exact Or.inl rfl
      rcases ih (uploadStep tR ts ctx a) with h | h <;> rw [h]
      · exact hstep
      · rcases hstep with h2 | h2 <;> rw [h2]
        · exact Or.inr rfl
        · exact Or.inr (map_tRdata_idem tR _)

/-! ## Keys and Nodup bookkeeping -/

theorem keys_setMtime (fs : FS) (p : String) (t : Int) :
    (fs.setMtime p t).files.map (fun q => q.1) = fs.files.map (fun q => q.1) := by
  unfold FS.setMtime
  dsimp only
  rw [List.map_map]
  apply List.map_congr_left
  intro a _
  by_cases h : a.1 = p <;> simp [h]

theorem nodup_keys_writeFile (fs : FS) (p : String) (e : Entry)
    (h : (fs.files.map (fun q => q.1)).Nodup) :
    ((fs.writeFile p e).files.map (fun q => q.1)).Nodup := by
  unfold FS.writeFile
  dsimp only
  rw [List.map_append]
  apply List.Nodup.append
  · exact List.Nodup.sublist (List.Sublist.map _ (List.filter_sublist fs.files)) h
  · simp
  · intro x hx hx2
    have hxp : x = p := by simpa using hx2
    rcases List.mem_map.mp hx with ⟨a, ha, rfl⟩
    have := (List.mem_filter.mp ha).2
    rw [hxp] at this
    simp at this

theorem nodup_keys_setMtime (fs : FS) (p : String) (t : Int)
    (h : (fs.files.map (fun q => q.1)).Nodup) :
    ((fs.setMtime p t).files.map (fun q => q.1)).Nodup := by
  rw [keys_setMtime]
  exact h

theorem nodup_keys_unlink (fs : FS) (p : String)
    (h : (fs.files.map (fun q => q.1)).Nodup) :
    ((fs.unlink p).files.map (fun q => q.1)).Nodup :=
  List.Nodup.sublist (List.Sublist.map _ (List.filter_sublist fs.files)) h

/-- In a key-Nodup association list, membership determines `find?`. -/
theorem find?_of_mem_nodup (l : List (String × Entry)) (q : String) (e : Entry)
    (hnd : (l.map (fun r => r.1)).Nodup) (hmem : (q, e) ∈ l) :
    l.find? (fun r => r.1 == q) = some (q, e) := by
  induction l with
  | nil => cases hmem
  | cons a as ih =>
      rcases List.mem_cons.mp hmem with h | hrest
      · rw [← h]
        rw [List.find?_cons_of_pos _ (by simp)]
      · have hq : q ∈ as.map (fun r => r.1) :=
          List.mem_map.mpr ⟨(q, e), hrest, rfl⟩
        have hnd2 : a.1 ∉ as.map (fun r => r.1) ∧ (as.map (fun r => r.1)).Nodup := by
          rw [List.map_cons] at hnd
          exact List.nodup_cons.mp hnd
        have hane : a.1 ≠ q := by
          intro hh
          rw [hh] at hnd2
          exact hnd2.1 hq
        rw [List.find?_cons_of_neg _ (by simp [hane])]
        exact ih hnd2.2 hrest

/-- In a key-Nodup map, list membership determines `statFile`. -/
theorem statFile_of_mem_nodup (fs : FS) (q : String) (e : Entry)
    (hnd : (fs.files.map (fun r => r.1)).Nodup) (hmem : (q, e) ∈ fs.files) :
    fs.statFile q = some e := by
  unfold FS.statFile
  rw [find?_of_mem_nodup fs.files q e hnd hmem]
  rfl

/-- `statFile` hits are list members (with the matching key). -/
theorem mem_of_statFile (fs : FS) (q : String) (e : Entry)
    (h : fs.statFile q = some e) : (q, e) ∈ fs.files := by
  unfold FS.statFile at h
  rcases Option.map_eq_some'.mp h with ⟨a, ha, ha2⟩
  have hmem := List.mem_of_find?_eq_some ha
  have hkey := List.find?_some ha
  have hk : a.1 = q := by simpa using hkey
  have haq : a = (q, e) := by
    rcases a with ⟨a1, a2⟩
    simp only at ha2 hk
    rw [hk, ha2]
  rw [← haq]
  exact hmem

theorem statFile_isSome_of_key_mem (fs : FS) (q : String)
    (h : q ∈ fs.files.map (fun r => r.1)) : (fs.statFile q).isSome = true := by
  rcases List.mem_map.mp h with ⟨a, ha, hk⟩
  unfold FS.statFile
  have hfind : (fs.files.find? (fun r => r.1 == q)).isSome :=
    List.find?_isSome.mpr ⟨a, ha, by simp [hk]⟩
  cases hf : fs.files.find? (fun r => r.1 == q) with
  | none => simp [hf] at hfind
  | some a2 => rfl

theorem key_mem_of_statFile_isSome (fs : FS) (q : String)
    (h : (fs.statFile q).isSome = true) : q ∈ fs.files.map (fun r => r.1) := by
  unfold FS.statFile at h
  cases hf : fs.files.find? (fun r => r.1 == q) with
  | none => rw [hf] at h; cases h
  | some a =>
      have hmem := List.mem_of_find?_eq_some hf
      have hkey := List.find?_some hf
      have hk : a.1 = q := by simpa using hkey
      exact hk ▸ List.mem_map.mpr ⟨a, hmem, rfl⟩

theorem statFile_isSome_writeFile (fs : FS) (p q : String) (e : Entry)
    (h : (fs.statFile q).isSome = true) :
    ((fs.writeFile p e).statFile q).isSome = true := by
  by_cases hqp : q = p
  · subst hqp
    rw [statFile_writeFile_self]
    rfl
  · rw [statFile_writeFile_ne _ _ hqp]
    exact h

/-! ## The master postcondition of the upload walk -/

/-- What the whole walk guarantees for each walked non-marker path, assuming
each pending entry agrees with the evolving context (true initially):
within tolerance nothing happens and the path is not uploaded; otherwise
the path is uploaded, both sides end aligned at `tR` with the local
content, and the remote ancestor chain exists. -/
theorem uploadFold_post (tR : Int) (ts : String) (rfs0 : FS) :
    ∀ (L : List (String × Entry)) (ctx : UploadCtx),
    (L.map (fun r => r.1)).Nodup →
    (∀ pe ∈ L, hasConflictMarker pe.1 = false →
      ctx.localFS.statFile pe.1 = some pe.2
        ∧ ctx.remote.statFile pe.1 = rfs0.statFile pe.1) →
    (∀ pe ∈ L, pe.1 ∉ ctx.uploads) →
    ∀ pe ∈ L, hasConflictMarker pe.1 = false →
      (∀ r : Entry, rfs0.statFile pe.1 = some r →
        -TIMESTAMP_TOLERANCE ≤ pe.2.mtime - r.mtime →
        pe.2.mtime - r.mtime ≤ TIMESTAMP_TOLERANCE →
        ((L.foldl (uploadStep tR ts) ctx).localFS.statFile pe.1 = some pe.2
          ∧ (L.foldl (uploadStep tR ts) ctx).remote.statFile pe.1 = some r
          ∧ pe.1 ∉ (L.foldl (uploadStep tR ts) ctx).uploads))
      ∧ ((rfs0.statFile pe.1 = none
          ∨ (∃ r : Entry, rfs0.statFile pe.1 = some r
              ∧ (pe.2.mtime - r.mtime > TIMESTAMP_TOLERANCE
                ∨ pe.2.mtime - r.mtime < -TIMESTAMP_TOLERANCE))) →
        ((L.foldl (uploadStep tR ts) ctx).localFS.statFile pe.1 = some ⟨tR, pe.2.data⟩
          ∧ (L.foldl (uploadStep tR ts) ctx).remote.statFile pe.1 = some ⟨tR, pe.2.data⟩
          ∧ ∀ d ∈ ancestorDirs pe.1, d ∈ (L.foldl (uploadStep tR ts) ctx).remote.dirs)) := by
  intro L
  induction L with
  | nil => intro ctx _ _ _ pe hpe; cases hpe
  | cons a as ih =>
      intro ctx hnd hagree hu pe hpe hm
      have hnd2 : a.1 ∉ as.map (fun r => r.1) ∧ (as.map (fun r => r.1)).Nodup := by
        rw [List.map_cons] at hnd
        exact List.nodup_cons.mp hnd
      have hrestne : ∀ q' ∈ as, q'.1 ≠ a.1 := fun q' hq' hh =>
        hnd2.1 (hh ▸ List.mem_map.mpr ⟨q', hq', rfl⟩)
      rw [List.foldl_cons]
      rcases List.mem_cons.mp hpe with heq | hrest
      · -- this step processes `pe`
        subst heq
        have hag := hagree pe (List.mem_cons_self pe as) hm
        constructor
        · intro r hr hlo hhi
          have heq2 := (uploadStep_self tR ts ctx pe hm).1 r (hag.2.trans hr) hlo hhi
          rw [heq2]
          refine ⟨?_, ?_, ?_⟩
          · rw [foldl_upload_local_preserve _ _ _ _ _ hrestne]
            exact hag.1
          · rw [foldl_upload_remote_preserve _ _ _ _ _ hm hrestne]
            exact hag.2.trans hr
          · intro hin
            rcases foldl_upload_uploads_keys _ _ _ _ _ hin with h | ⟨pe', hpe', hk, _⟩
            · exact hu pe (List.mem_cons_self pe as) h
            · exact hrestne pe' hpe' hk
        · intro hcase
          have hcase' : ctx.remote.statFile pe.1 = none
              ∨ (∃ r : Entry, ctx.remote.statFile pe.1 = some r
                  ∧ (pe.2.mtime - r.mtime > TIMESTAMP_TOLERANCE
                    ∨ pe.2.mtime - r.mtime < -TIMESTAMP_TOLERANCE)) := by
            rcases hcase with h | ⟨r, hr, hb⟩
            · exact Or.inl (hag.2.trans h)
            · exact Or.inr ⟨r, hag.2.trans hr, hb⟩
          obtain ⟨hl', hr', hd'⟩ := (uploadStep_self tR ts ctx pe hm).2 hcase'
          refine ⟨?_, ?_, ?_⟩
          · rw [foldl_upload_local_preserve _ _ _ _ _ hrestne, hl', hag.1]
            rfl
          · rw [foldl_upload_remote_preserve _ _ _ _ _ hm hrestne]
            exact hr'
          · intro d hd
            exact foldl_upload_remote_dirs_mono _ _ _ _ _ (hd' d hd)
      · -- `pe` is processed later; transfer the invariants across this step
        refine ih (uploadStep tR ts ctx a) hnd2.2 ?_ ?_ pe hrest hm
        · intro q' hq' hm'
          have hne := hrestne q' hq'
          refine ⟨?_, ?_⟩
          · rw [uploadStep_local_preserve _ _ _ _ _ hne]
            exact (hagree q' (List.mem_cons_of_mem a hq') hm').1
          · rw [uploadStep_remote_preserve _ _ _ _ _ hm' hne]
            exact (hagree q' (List.mem_cons_of_mem a hq') hm').2
        · intro q' hq' hin
          rcases uploadStep_uploads tR ts ctx a q'.1 hin with h | ⟨hk, _⟩
          · exact hu q' (List.mem_cons_of_mem a hq') h
          · exact hrestne q' hq' hk

/-! ## Characterizing remote writes of the walk -/

theorem keys_writeFile_sub (fs : FS) (p q : String) (e : Entry)
    (h : q ∈ (fs.writeFile p e).files.map (fun r => r.1)) :
    q ∈ fs.files.map (fun r => r.1) ∨ q = p := by
  unfold FS.writeFile at h
  dsimp only at h
  rw [List.map_append] at h
  rcases List.mem_append.mp h with h | h
  · rcases List.mem_map.mp h with ⟨a, ha, rfl⟩
    exact Or.inl (List.mem_map.mpr ⟨a, (List.mem_filter.mp ha).1, rfl⟩)
  · right
    simpa using h

theorem uploadStep_remote_keys (tR : Int) (ts : String) (ctx : UploadCtx)
    (pe : String × Entry) (q : String)
    (h : q ∈ (uploadStep tR ts ctx pe).remote.files.map (fun r => r.1)) :
    q ∈ ctx.remote.files.map (fun r => r.1) ∨ q = pe.1 ∨ hasConflictMarker q = true := by
  have hens : ∀ fs : FS, (ensureRemoteDir fs (parentDir pe.1)).files = fs.files :=
    fun fs => files_ensureRemoteDir fs _
  unfold uploadStep at h
  split at h
  · exact Or.inl h
  · dsimp only at h
    split at h
    · rcases keys_writeFile_sub _ _ _ _ h with h2 | h2
      · rw [hens] at h2
        exact Or.inl h2
      · exact Or.inr (Or.inl h2)
    · split at h
      · rcases keys_writeFile_sub _ _ _ _ h with h2 | h2
        · rw [hens] at h2
          exact Or.inl h2
        · exact Or.inr (Or.inl h2)
      · split at h
        · rcases keys_writeFile_sub _ _ _ _ h with h2 | h2
          · rw [hens] at h2
            rcases keys_writeFile_sub _ _ _ _ h2 with h3 | h3
            · exact Or.inl h3
            · exact Or.inr (Or.inr (h3 ▸ hasConflictMarker_genRemote pe.1 ts))
          · exact Or.inr (Or.inl h2)
        · exact Or.inl h

theorem foldl_upload_remote_keys (tR : Int) (ts : String) (L : List (String × Entry))
    (ctx : UploadCtx) (q : String)
    (h : q ∈ (L.foldl (uploadStep tR ts) ctx).remote.files.map (fun r => r.1)) :
    q ∈ ctx.remote.files.map (fun r => r.1) ∨ (∃ pe ∈ L, pe.1 = q)
    ∨ hasConflictMarker q = true := by
  induction L generalizing ctx with
  | nil => exact Or.inl h
  | cons a as ih =>
      rw [List.foldl_cons] at h
      rcases ih _ h with h2 | ⟨pe, hpe, rfl⟩ | h2
      · rcases uploadStep_remote_keys tR ts ctx a q h2 with h3 | h3 | h3
        · exact Or.inl h3
        · exact Or.inr (Or.inl ⟨a, List.mem_cons_self a as, h3.symm⟩)
        · exact Or.inr (Or.inr h3)
      · exact Or.inr (Or.inl ⟨pe, List.mem_cons_of_mem a hpe, rfl⟩)
      · exact Or.inr (Or.inr h2)

/-- What the walk can have written remotely at a non-marker path: either the
old entry survives or the path was uploaded (and its ancestor chain
exists at the end of the walk). -/
theorem uploadStep_remote_char (tR : Int) (ts : String) (ctx : UploadCtx)
    (pe : String × Entry) (q : String) (r : Entry) (hq : hasConflictMarker q = false)
    (h : (uploadStep tR ts ctx pe).remote.statFile q = some r) :
    ctx.remote.statFile q = some r
    ∨ (pe.1 = q ∧ r = ⟨tR, pe.2.data⟩
        ∧ ∀ d ∈ ancestorDirs q, d ∈ (uploadStep tR ts ctx pe).remote.dirs) := by
  by_cases hqp : q = pe.1
  · by_cases hmk : hasConflictMarker pe.1 = true
    · left
      unfold uploadStep at h
      rw [if_pos hmk] at h
      exact h
    · have hmk' : hasConflictMarker pe.1 = false := by simpa using hmk
      rcases hrem : ctx.remote.statFile pe.1 with _ | r0
      · obtain ⟨_, hr', hd'⟩ := (uploadStep_self tR ts ctx pe hmk').2 (Or.inl hrem)
        rw [hqp] at h ⊢
        rw [hr'] at h
        exact Or.inr ⟨rfl, (Option.some_inj.mp h).symm, fun d hd => hd' d (hqp ▸ hd)⟩
      · by_cases hlo : -TIMESTAMP_TOLERANCE ≤ pe.2.mtime - r0.mtime
        · by_cases hhi : pe.2.mtime - r0.mtime ≤ TIMESTAMP_TOLERANCE
          · left
            have heq := (uploadStep_self tR ts ctx pe hmk').1 r0 hrem hlo hhi
            rw [heq] at h
            exact h
          · obtain ⟨_, hr', hd'⟩ := (uploadStep_self tR ts ctx pe hmk').2
              (Or.inr ⟨r0, hrem, Or.inl (by omega)⟩)
            rw [hqp] at h ⊢
            rw [hr'] at h
            exact Or.inr ⟨rfl, (Option.some_inj.mp h).symm, fun d hd => hd' d (hqp ▸ hd)⟩
        · obtain ⟨_, hr', hd'⟩ := (uploadStep_self tR ts ctx pe hmk').2
            (Or.inr ⟨r0, hrem, Or.inr (by omega)⟩)
          rw [hqp] at h ⊢
          rw [hr'] at h
          exact Or.inr ⟨rfl, (Option.some_inj.mp h).symm, fun d hd => hd' d (hqp ▸ hd)⟩
  · left
    rw [uploadStep_remote_preserve _ _ _ _ _ hq hqp] at h
    exact h

theorem foldl_upload_remote_char (tR : Int) (ts : String)
    (L : List (String × Entry)) (ctx : UploadCtx) (q : String) (r : Entry)
    (hq : hasConflictMarker q = false)
    (h : (L.foldl (uploadStep tR ts) ctx).remote.statFile q = some r) :
    ctx.remote.statFile q = some r
    ∨ ((∃ pe ∈ L, pe.1 = q ∧ r = ⟨tR, pe.2.data⟩)
        ∧ ∀ d ∈ ancestorDirs q, d ∈ (L.foldl (uploadStep tR ts) ctx).remote.dirs) := by
  induction L generalizing ctx with
  | nil => exact Or.inl h
  | cons a as ih =>
      rw [List.foldl_cons] at h ⊢
      rcases ih _ h with h2 | ⟨⟨pe, hpe, hk, hr⟩, hd⟩
      · rcases uploadStep_remote_char tR ts ctx a q r hq h2 with h3 | ⟨hk, hr, hd⟩
        · exact Or.inl h3
        · exact Or.inr ⟨⟨a, List.mem_cons_self a as, hk, hr⟩,
            fun d hdd => foldl_upload_remote_dirs_mono _ _ _ _ _ (hd d hdd)⟩
      · exact Or.inr ⟨⟨pe, List.mem_cons_of_mem a hpe, hk, hr⟩, hd⟩

/-! ## Unlink folds: characterization and dirs -/

theorem foldl_unlink_statFile_some (l : List String) (fs : FS) (q : String) (r : Entry)
    (h : ((l.foldl (fun fs k => fs.unlink k) fs)).statFile q = some r) :
    fs.statFile q = some r := by
  induction l generalizing fs with
  | nil => exact h
  | cons a as ih =>
      rw [List.foldl_cons] at h
      have h2 := ih _ h
      by_cases hqa : q = a
      · subst hqa
        rw [statFile_unlink_self] at h2
        cases h2
      · rw [statFile_unlink_ne _ hqa] at h2
        exact h2

theorem foldl_unlink_dirs (l : List String) (fs : FS) :
    ((l.foldl (fun fs k => fs.unlink k) fs)).dirs = fs.dirs := by
  induction l generalizing fs with
  | nil => rfl
  | cons a as ih => rw [List.foldl_cons, ih, dirs_unlink]

theorem foldl_unlink_nodup (l : List String) (fs : FS)
    (h : (fs.files.map (fun r => r.1)).Nodup) :
    (((l.foldl (fun fs k => fs.unlink k) fs)).files.map (fun r => r.1)).Nodup := by
  induction l generalizing fs with
  | nil => exact h
  | cons a as ih =>
      rw [List.foldl_cons]
      exact ih _ (nodup_keys_unlink fs a h)

/-! ## Download-walk facts -/

theorem loadSyncState_congr (fs1 fs2 : FS)
    (h : fs1.statFile stateFileName = fs2.statFile stateFileName) :
    loadSyncState fs1 = loadSyncState fs2 := by
  unfold loadSyncState
  rw [h]

/-- The download walk never disturbs an existing non-marker local file. -/
theorem downloadStep_present (ts : String) (tArt : Int) (ctx : DownloadCtx)
    (pr : String × Entry) (q : String) (l : Entry) (hq : hasConflictMarker q = false)
    (hl : ctx.localFS.statFile q = some l) :
    (downloadStep ts tArt ctx pr).localFS.statFile q = some l := by
  unfold downloadStep
  split
  · exact hl
  · dsimp only
    rcases hsc : ctx.localFS.statFile pr.1 with _ | l2 <;> dsimp only
    · have hqp : q ≠ pr.1 := by
        intro hh
        rw [hh, hsc] at hl
        cases hl
      rw [statFile_writeFile_ne _ _ hqp, statFile_mkdirp]
      exact hl
    · split
      · have hc := hasConflictMarker_genConflict ctx.localFS pr.1 "remote" ts
        have hqc : q ≠ generateConflictName ctx.localFS pr.1 "remote" ts := by
          intro hh
          rw [hh, hc] at hq
          cases hq
        rw [statFile_writeFile_ne _ _ hqc]
        exact hl
      · exact hl

theorem downloadStep_isSome_mono (ts : String) (tArt : Int) (ctx : DownloadCtx)
    (pr : String × Entry) (q : String)
    (h : (ctx.localFS.statFile q).isSome = true) :
    ((downloadStep ts tArt ctx pr).localFS.statFile q).isSome = true := by
  unfold downloadStep
  split
  · exact h
  · dsimp only
    rcases hsc : ctx.localFS.statFile pr.1 with _ | l2 <;> dsimp only
    · apply statFile_isSome_writeFile
      rw [statFile_mkdirp]
      exact h
    · split
      · exact statFile_isSome_writeFile _ _ _ _ h
      · exact h

/-- After the download walk, a non-marker local file either already existed
with the same entry or is the downloaded copy of a walked remote entry. -/
theorem downloadStep_local_char (ts : String) (tArt : Int) (ctx : DownloadCtx)
    (pr : String × Entry) (q : String) (e : Entry) (hq : hasConflictMarker q = false)
    (h : (downloadStep ts tArt ctx pr).localFS.statFile q = some e) :
    ctx.localFS.statFile q = some e ∨ (pr.1 = q ∧ e = ⟨pr.2.mtime, pr.2.data⟩) := by
  unfold downloadStep at h
  split at h
  · exact Or.inl h
  · dsimp only at h
    rcases hsc : ctx.localFS.statFile pr.1 with _ | l2 <;> rw [hsc] at h <;> dsimp only at h
    · by_cases hqp : q = pr.1
      · subst hqp
        rw [statFile_writeFile_self] at h
        exact Or.inr ⟨rfl, (Option.some_inj.mp h).symm⟩
      · rw [statFile_writeFile_ne _ _ hqp, statFile_mkdirp] at h
        exact Or.inl h
    · split at h
      · have hc := hasConflictMarker_genConflict ctx.localFS pr.1 "remote" ts
        have hqc : q ≠ generateConflictName ctx.localFS pr.1 "remote" ts := by
          intro hh
          rw [hh, hc] at hq
          cases hq
        rw [statFile_writeFile_ne _ _ hqc] at h
        exact Or.inl h
      · exact Or.inl h

theorem foldl_download_present (ts : String) (tArt : Int) (L : List (String × Entry))
    (ctx : DownloadCtx) (q : String) (l : Entry) (hq : hasConflictMarker q = false)
    (hl : ctx.localFS.statFile q = some l) :
    ((L.foldl (downloadStep ts tArt) ctx)).localFS.statFile q = some l := by
  induction L generalizing ctx with
  | nil => exact hl
  | cons a as ih =>
      rw [List.foldl_cons]
      exact ih _ (downloadStep_present ts tArt ctx a q l hq hl)

theorem foldl_download_isSome_mono (ts : String) (tArt : Int)
    (L : List (String × Entry)) (ctx : DownloadCtx) (q : String)
    (h : (ctx.localFS.statFile q).isSome = true) :
    (((L.foldl (downloadStep ts tArt) ctx)).localFS.statFile q).isSome = true := by
  induction L generalizing ctx with
  | nil => exact h
  | cons a as ih =>
      rw [List.foldl_cons]
      exact ih _ (downloadStep_isSome_mono ts tArt ctx a q h)

theorem foldl_download_isSome_of_mem (ts : String) (tArt : Int)
    (L : List (String × Entry)) (ctx : DownloadCtx) (q : String) (r : Entry)
    (hq : hasConflictMarker q = false) (hmem : (q, r) ∈ L) :
    (((L.foldl (downloadStep ts tArt) ctx)).localFS.statFile q).isSome = true := by
  induction L generalizing ctx with
  | nil => cases hmem
  | cons a as ih =>
      rw [List.foldl_cons]
      rcases List.mem_cons.mp hmem with heq | hrest
      · apply foldl_download_isSome_mono
        rw [← heq]
        unfold downloadStep
        rw [if_neg (by simp [hq])]
        dsimp only
        rcases hsc : ctx.localFS.statFile q with _ | l2 <;> dsimp only
        · rw [statFile_writeFile_self]
          rfl
        · split
          · apply statFile_isSome_writeFile
            rw [hsc]
            rfl
          · rw [hsc]
            rfl
      · exact ih _ hrest

theorem foldl_download_downloads_nil (ts : String) (tArt : Int)
    (L : List (String × Entry)) (ctx : DownloadCtx)
    (h : ∀ pr ∈ L, hasConflictMarker pr.1 = false →
      (ctx.localFS.statFile pr.1).isSome = true) :
    ((L.foldl (downloadStep ts tArt) ctx)).downloads = ctx.downloads := by
  induction L generalizing ctx with
  | nil => rfl
  | cons a as ih =>
      rw [List.foldl_cons]
      have hstep : (downloadStep ts tArt ctx a).downloads = ctx.downloads
          ∧ ∀ q, (ctx.localFS.statFile q).isSome = true →
            ((downloadStep ts tArt ctx a).localFS.statFile q).isSome = true := by
        refine ⟨?_, fun q hq => downloadStep_isSome_mono ts tArt ctx a q hq⟩
        unfold downloadStep
        split
        · rfl
        next hmark =>
          have hm : hasConflictMarker a.1 = false := by simpa using hmark
          dsimp only
          rcases hsc : ctx.localFS.statFile a.1 with _ | l2
          · have := h a (List.mem_cons_self a as) hm
            rw [hsc] at this
            cases this
          · dsimp only
            split <;> rfl
      rw [ih _ (fun pr hpr hm => hstep.2 pr.1 (h pr (List.mem_cons_of_mem a hpr) hm)),
        hstep.1]

theorem downloadStep_nodup (ts : String) (tArt : Int) (ctx : DownloadCtx)
    (pr : String × Entry) (h : (ctx.localFS.files.map (fun r => r.1)).Nodup) :
    ((downloadStep ts tArt ctx pr).localFS.files.map (fun r => r.1)).Nodup := by
  unfold downloadStep
  split
  · exact h
  · dsimp only
    rcases hsc : ctx.localFS.statFile pr.1 with _ | l2 <;> dsimp only
    · apply nodup_keys_writeFile
      rw [files_mkdirp]
      exact h
    · split
      · exact nodup_keys_writeFile _ _ _ h
      · exact h

theorem foldl_download_nodup (ts : String) (tArt : Int) (L : List (String × Entry))
    (ctx : DownloadCtx) (h : (ctx.localFS.files.map (fun r => r.1)).Nodup) :
    (((L.foldl (downloadStep ts tArt) ctx)).localFS.files.map (fun r => r.1)).Nodup := by
  induction L generalizing ctx with
  | nil => exact h
  | cons a as ih =>
      rw [List.foldl_cons]
      exact ih _ (downloadStep_nodup ts tArt ctx a h)

theorem foldl_download_local_char (ts : String) (tArt : Int)
    (L : List (String × Entry)) (ctx : DownloadCtx) (q : String) (e : Entry)
    (hq : hasConflictMarker q = false)
    (h : ((L.foldl (downloadStep ts tArt) ctx)).localFS.statFile q = some e) :
    ctx.localFS.statFile q = some e
    ∨ ∃ pr ∈ L, pr.1 = q ∧ e = ⟨pr.2.mtime, pr.2.data⟩ := by
  induction L generalizing ctx with
  | nil => exact Or.inl h
  | cons a as ih =>
      rw [List.foldl_cons] at h
      rcases ih _ h with h2 | ⟨pr, hpr, hk, he⟩
      · rcases downloadStep_local_char ts tArt ctx a q e hq h2 with h3 | ⟨hk, he⟩
        · exact Or.inl h3
        · exact Or.inr ⟨a, List.mem_cons_self a as, hk, he⟩
      · exact Or.inr ⟨pr, List.mem_cons_of_mem a hpr, hk, he⟩

/-! ## Remaining walk bookkeeping -/

theorem foldl_upload_local_keys (tR : Int) (ts : String) (L : List (String × Entry))
    (ctx : UploadCtx) :
    (L.foldl (uploadStep tR ts) ctx).localFS.files.map (fun r => r.1)
      = ctx.localFS.files.map (fun r => r.1) := by
  induction L generalizing ctx with
  | nil => rfl
  | cons a as ih =>
      rw [List.foldl_cons, ih]
      rcases uploadStep_localFS tR ts ctx a with h | h <;> rw [h]
      rw [keys_setMtime]

theorem uploadStep_remote_nodup (tR : Int) (ts : String) (ctx : UploadCtx)
    (pe : String × Entry) (h : (ctx.remote.files.map (fun r => r.1)).Nodup) :
    ((uploadStep tR ts ctx pe).remote.files.map (fun r => r.1)).Nodup := by
  have hens : ∀ fs : FS, (fs.files.map (fun r => r.1)).Nodup →
      ((ensureRemoteDir fs (parentDir pe.1)).files.map (fun r => r.1)).Nodup := by
    intro fs hf
    rw [files_ensureRemoteDir]
    exact hf
  unfold uploadStep
  split
  · exact h
  · dsimp only
    split
    · exact nodup_keys_writeFile _ _ _ (hens _ h)
    · split
      · exact nodup_keys_writeFile _ _ _ (hens _ h)
      · split
        · exact nodup_keys_writeFile _ _ _ (hens _ (nodup_keys_writeFile _ _ _ h))
        · exact h

theorem foldl_upload_remote_nodup (tR : Int) (ts : String) (L : List (String × Entry))
    (ctx : UploadCtx) (h : (ctx.remote.files.map (fun r => r.1)).Nodup) :
    ((L.foldl (uploadStep tR ts) ctx).remote.files.map (fun r => r.1)).Nodup := by
  induction L generalizing ctx with
  | nil => exact h
  | cons a as ih =>
      rw [List.foldl_cons]
      exact ih _ (uploadStep_remote_nodup tR ts ctx a h)

theorem contains_true_of_mem {l : List String} {k : String} (h : k ∈ l) :
    l.contains k = true := List.elem_iff.mpr h

theorem mem_of_contains_true {l : List String} {k : String} (h : l.contains k = true) :
    k ∈ l := List.elem_iff.mp h

/-! ## Branch equations of `fullUpload` and `reconcileRemoteDeletions` -/

theorem statFile_rootTrue (fs : FS) (q : String) :
    FS.statFile { fs with rootExists := true } q = fs.statFile q := rfl

theorem files_rootTrue (fs : FS) :
    ({ fs with rootExists := true } : FS).files = fs.files := rfl

theorem statFile_foldl_prune (l : List String) (fs : FS) (q : String) :
    ((l.foldl (fun fs d => pruneEmptyDirTree fs d) fs)).statFile q = fs.statFile q := by
  unfold FS.statFile
  rw [foldl_prune_files]

/-- With consent, `fullUpload` always takes the deleting branch. -/
theorem fullUpload_consent_eq (lf rem : FS) (tR tS : Int) (ts : String) :
    fullUpload lf rem true tR tS ts =
      ⟨saveSyncState (uploadWalk lf rem tR ts).localFS (uploadWalk lf rem tR ts).localPaths tS,
       (localDelCands lf rem tR ts).foldl (fun r k => r.unlink k)
         (uploadWalk lf rem tR ts).remote,
       (uploadWalk lf rem tR ts).uploads, (uploadWalk lf rem tR ts).localPaths,
       (uploadWalk lf rem tR ts).backups, localDelCands lf rem tR ts,
       localDelCands lf rem tR ts, true⟩ := by
  unfold fullUpload
  dsimp only
  split
  · next h => simp at h
  · rfl

/-- With no local-origin deletion candidates, `fullUpload` rewrites the
ledger and touches nothing else, whatever the gate would have answered. -/
theorem fullUpload_nodel_eq (lf rem : FS) (ans : Bool) (tR tS : Int) (ts : String)
    (h : localDelCands lf rem tR ts = []) :
    fullUpload lf rem ans tR tS ts =
      ⟨saveSyncState (uploadWalk lf rem tR ts).localFS (uploadWalk lf rem tR ts).localPaths tS,
       (uploadWalk lf rem tR ts).remote,
       (uploadWalk lf rem tR ts).uploads, (uploadWalk lf rem tR ts).localPaths,
       (uploadWalk lf rem tR ts).backups, [], [], true⟩ := by
  unfold fullUpload
  dsimp only
  rw [h]
  split
  · next hcond => simp at hcond
  · rfl

theorem reconcile_deletedFiles_cases (lf r : FS)
    (skip0 : Option (List String × List String)) (ans : Bool) (t : Int) :
    (reconcileRemoteDeletions lf r skip0 ans t).deletedFiles = []
    ∨ (reconcileRemoteDeletions lf r skip0 ans t).deletedFiles = remoteDelFileCands lf r := by
  unfold reconcileRemoteDeletions
  dsimp only
  split
  · split
    · exact Or.inl rfl
    · split
      · exact Or.inl rfl
      · exact Or.inr rfl
  · exact Or.inl rfl

/-- When the remote-origin file candidate set is empty, the reconciler can
only touch the ledger file (directory pruning and the possible ledger
save never change any other file). -/
theorem reconcile_statFile_nodel (lf r : FS)
    (skip0 : Option (List String × List String)) (ans : Bool) (t : Int) (q : String)
    (hq : q ≠ stateFileName) (hcf : remoteDelFileCands lf r = []) :
    (reconcileRemoteDeletions lf r skip0 ans t).localFS.statFile q = lf.statFile q := by
  unfold reconcileRemoteDeletions
  dsimp only
  rw [hcf]
  split
  · split
    · rfl
    · split
      · rfl
      · dsimp only
        unfold saveSyncState
        rw [statFile_writeFile_ne _ _ hq, statFile_rootTrue,
          statFile_foldl_prune, List.foldl_nil]
  · rfl

theorem reconcile_state_isSome_nodel (lf r : FS)
    (skip0 : Option (List String × List String)) (ans : Bool) (t : Int)
    (hcf : remoteDelFileCands lf r = [])
    (h : (lf.statFile stateFileName).isSome = true) :
    ((reconcileRemoteDeletions lf r skip0 ans t).localFS.statFile
      stateFileName).isSome = true := by
  unfold reconcileRemoteDeletions
  dsimp only
  rw [hcf]
  split
  · split
    · exact h
    · split
      · exact h
      · dsimp only
        unfold saveSyncState
        rw [statFile_writeFile_self]
        rfl
  · exact h

/-- When the remote-origin file candidate set is empty, the parsed ledger
survives the reconciler (a consenting save rewrites it with the same
content). -/
theorem reconcile_loadSyncState_nodel (lf r : FS)
    (skip0 : Option (List String × List String)) (ans : Bool) (t : Int)
    (hcf : remoteDelFileCands lf r = []) :
    loadSyncState (reconcileRemoteDeletions lf r skip0 ans t).localFS
      = loadSyncState lf := by
  unfold reconcileRemoteDeletions
  dsimp only
  rw [hcf]
  split
  · split
    · rfl
    · split
      · rfl
      · dsimp only
        rw [loadSyncState_saveSyncState]
        have hfil : List.filter (fun k => !List.contains ([] : List String) k)
            (loadSyncState lf).knownFiles = (loadSyncState lf).knownFiles :=
          List.filter_eq_self.mpr (fun a _ => rfl)
        rw [hfil]
  · rfl

theorem reconcile_nodup (lf r : FS) (skip0 : Option (List String × List String))
    (ans : Bool) (t : Int) (h : (lf.files.map (fun x => x.1)).Nodup) :
    ((reconcileRemoteDeletions lf r skip0 ans t).localFS.files.map
      (fun x => x.1)).Nodup := by
  unfold reconcileRemoteDeletions
  dsimp only
  split
  · split
    · exact h
    · split
      · exact h
      · dsimp only
        unfold saveSyncState
        apply nodup_keys_writeFile
        rw [files_rootTrue, foldl_prune_files]
        exact foldl_unlink_nodup _ _ h
  · exact h

/-! ## Convergence after one upload+download pass -/

/-- Master postcondition of one consenting upload pass followed by the
download pass: every non-marker, non-ledger local file afterwards has a
remote partner within the tolerance; the persisted ledger is exactly the
walked path set; every walked path and every non-marker remote file is
present on both sides; key-Nodup is preserved on both sides. -/
theorem cyclePass_post (lf1 rem0 : FS) (tR tS tArt : Int) (ts : String)
    (U : UploadResult) (D : DownloadCtx)
    (hU : U = fullUpload lf1 rem0 true tR tS ts)
    (hD : D = fullDownload U.localFS U.remote ts tArt)
    (hnd : (lf1.files.map (fun x => x.1)).Nodup)
    (hndR : (rem0.files.map (fun x => x.1)).Nodup) :
    (∀ q e, hasConflictMarker q = false → q ≠ stateFileName →
        D.localFS.statFile q = some e →
        ∃ rv, U.remote.statFile q = some rv
          ∧ -TIMESTAMP_TOLERANCE ≤ e.mtime - rv.mtime
          ∧ e.mtime - rv.mtime ≤ TIMESTAMP_TOLERANCE)
    ∧ loadSyncState D.localFS = ⟨(uploadWalk lf1 rem0 tR ts).localPaths⟩
    ∧ (∀ k ∈ (uploadWalk lf1 rem0 tR ts).localPaths,
        (D.localFS.statFile k).isSome = true ∧ (U.remote.statFile k).isSome = true)
    ∧ (∀ q, hasConflictMarker q = false → q ∈ U.remote.files.map (fun x => x.1) →
        (D.localFS.statFile q).isSome = true)
    ∧ (D.localFS.files.map (fun x => x.1)).Nodup
    ∧ (U.remote.files.map (fun x => x.1)).Nodup := by
  have hT : TIMESTAMP_TOLERANCE = (5000 : Int) := rfl
  have hstateM : hasConflictMarker stateFileName = false := by decide
  have hWdef : uploadWalk lf1 rem0 tR ts
      = lf1.files.foldl (uploadStep tR ts) ⟨lf1, rem0, [], [], []⟩ := rfl
  have hUl : U.localFS = saveSyncState (uploadWalk lf1 rem0 tR ts).localFS
      (uploadWalk lf1 rem0 tR ts).localPaths tS := by
    rw [hU, fullUpload_consent_eq]
  have hUr : U.remote = (localDelCands lf1 rem0 tR ts).foldl (fun r k => r.unlink k)
      (uploadWalk lf1 rem0 tR ts).remote := by
    rw [hU, fullUpload_consent_eq]
  have hLP : (uploadWalk lf1 rem0 tR ts).localPaths
      = (lf1.files.map (fun q => q.1)).filter (fun p => !hasConflictMarker p) := by
    rw [hWdef, foldl_uploadStep_localPaths]
    dsimp only
    rw [List.nil_append]
  have hLPmem : ∀ k ∈ (uploadWalk lf1 rem0 tR ts).localPaths,
      hasConflictMarker k = false ∧ ∃ e0, (k, e0) ∈ lf1.files := by
    intro k hk
    rw [hLP] at hk
    have h1 := List.mem_filter.mp hk
    refine ⟨by simpa using h1.2, ?_⟩
    rcases List.mem_map.mp h1.1 with ⟨a, ha, hkey⟩
    refine ⟨a.2, ?_⟩
    rw [← hkey]
    exact ha
  have hmemLP : ∀ q, hasConflictMarker q = false → q ∈ lf1.files.map (fun x => x.1) →
      q ∈ (uploadWalk lf1 rem0 tR ts).localPaths := by
    intro q hq hmem
    rw [hLP]
    exact List.mem_filter.mpr ⟨hmem, by simp [hq]⟩
  have hcands : ∀ k ∈ (uploadWalk lf1 rem0 tR ts).localPaths,
      k ∉ localDelCands lf1 rem0 tR ts := by
    intro k hk hmem
    have h2 := (List.mem_filter.mp hmem).2
    rw [contains_true_of_mem hk] at h2
    simp at h2
  have hpost := uploadFold_post tR ts rem0 lf1.files ⟨lf1, rem0, [], [], []⟩ hnd
    (fun pe hpe _ => ⟨statFile_of_mem_nodup lf1 pe.1 pe.2 hnd hpe, rfl⟩)
    (fun pe _ => List.not_mem_nil pe.1)
  have hF5 : ∀ pe ∈ lf1.files, hasConflictMarker pe.1 = false →
      ∃ ev rv : Entry,
        (uploadWalk lf1 rem0 tR ts).localFS.statFile pe.1 = some ev
        ∧ (uploadWalk lf1 rem0 tR ts).remote.statFile pe.1 = some rv
        ∧ -TIMESTAMP_TOLERANCE ≤ ev.mtime - rv.mtime
        ∧ ev.mtime - rv.mtime ≤ TIMESTAMP_TOLERANCE := by
    intro pe hpe hm
    rw [hWdef]
    rcases hrem : rem0.statFile pe.1 with _ | r0
    · obtain ⟨hl, hr, _⟩ := (hpost pe hpe hm).2 (Or.inl hrem)
      refine ⟨⟨tR, pe.2.data⟩, ⟨tR, pe.2.data⟩, hl, hr, ?_, ?_⟩
      · show -TIMESTAMP_TOLERANCE ≤ tR - tR
        rw [hT]
        omega
      · show tR - tR ≤ TIMESTAMP_TOLERANCE
        rw [hT]
        omega
    · by_cases hlo : -TIMESTAMP_TOLERANCE ≤ pe.2.mtime - r0.mtime
      · by_cases hhi : pe.2.mtime - r0.mtime ≤ TIMESTAMP_TOLERANCE
        · obtain ⟨hl, hr, _⟩ := (hpost pe hpe hm).1 r0 hrem hlo hhi
          exact ⟨pe.2, r0, hl, hr, hlo, hhi⟩
        · obtain ⟨hl, hr, _⟩ := (hpost pe hpe hm).2 (Or.inr ⟨r0, hrem, Or.inl (by omega)⟩)
          refine ⟨⟨tR, pe.2.data⟩, ⟨tR, pe.2.data⟩, hl, hr, ?_, ?_⟩
          · show -TIMESTAMP_TOLERANCE ≤ tR - tR
            rw [hT]
            omega
          · show tR - tR ≤ TIMESTAMP_TOLERANCE
            rw [hT]
            omega
      · obtain ⟨hl, hr, _⟩ := (hpost pe hpe hm).2 (Or.inr ⟨r0, hrem, Or.inr (by omega)⟩)
        refine ⟨⟨tR, pe.2.data⟩, ⟨tR, pe.2.data⟩, hl, hr, ?_, ?_⟩
        · show -TIMESTAMP_TOLERANCE ≤ tR - tR
          rw [hT]
          omega
        · show tR - tR ≤ TIMESTAMP_TOLERANCE
          rw [hT]
          omega
  have hUrLP : ∀ k ∈ (uploadWalk lf1 rem0 tR ts).localPaths,
      U.remote.statFile k = (uploadWalk lf1 rem0 tR ts).remote.statFile k := by
    intro k hk
    rw [hUr]
    exact foldl_unlink_statFile_not_mem _ _ _ (hcands k hk)
  have hUlq : ∀ q, q ≠ stateFileName →
      U.localFS.statFile q = (uploadWalk lf1 rem0 tR ts).localFS.statFile q := by
    intro q hq
    rw [hUl]
    unfold saveSyncState
    rw [statFile_writeFile_ne _ _ hq, statFile_rootTrue]
  have hUlstate : U.localFS.statFile stateFileName
      = some ⟨tS, FileData.ledgerDoc (uploadWalk lf1 rem0 tR ts).localPaths⟩ := by
    rw [hUl]
    unfold saveSyncState
    rw [statFile_writeFile_self]
  have hDeq : D = U.remote.files.foldl (downloadStep ts tArt)
      ⟨(U.remote.dirs.filter (fun d => !hasConflictMarker d)).foldl
          (fun fs d => fs.mkdirp d) U.localFS, [], []⟩ := hD
  have hndR2 : ((U.remote.files.map (fun x => x.1))).Nodup := by
    rw [hUr]
    apply foldl_unlink_nodup
    rw [hWdef]
    exact foldl_upload_remote_nodup tR ts lf1.files ⟨lf1, rem0, [], [], []⟩ hndR
  have hDstate : D.localFS.statFile stateFileName
      = some ⟨tS, FileData.ledgerDoc (uploadWalk lf1 rem0 tR ts).localPaths⟩ := by
    rw [hDeq]
    apply foldl_download_present _ _ _ _ _ _ hstateM
    dsimp only
    rw [foldl_mkdirp_statFile]
    exact hUlstate
  have hM3 : loadSyncState D.localFS = ⟨(uploadWalk lf1 rem0 tR ts).localPaths⟩ := by
    unfold loadSyncState
    rw [hDstate]
  have hDsome : ∀ q, (U.localFS.statFile q).isSome = true →
      (D.localFS.statFile q).isSome = true := by
    intro q h
    rw [hDeq]
    apply foldl_download_isSome_mono
    dsimp only
    rw [foldl_mkdirp_statFile]
    exact h
  have hM4 : ∀ k ∈ (uploadWalk lf1 rem0 tR ts).localPaths,
      (D.localFS.statFile k).isSome = true ∧ (U.remote.statFile k).isSome = true := by
    intro k hk
    obtain ⟨hkm, e0, he0⟩ := hLPmem k hk
    obtain ⟨ev, rv, hl, hr, _, _⟩ := hF5 (k, e0) he0 hkm
    constructor
    · apply hDsome
      by_cases hks : k = stateFileName
      · rw [hks, hUlstate]
        rfl
      · rw [hUlq k hks, hl]
        rfl
    · rw [hUrLP k hk, hr]
      rfl
  have hM1 : ∀ q e, hasConflictMarker q = false → q ≠ stateFileName →
      D.localFS.statFile q = some e →
      ∃ rv, U.remote.statFile q = some rv
        ∧ -TIMESTAMP_TOLERANCE ≤ e.mtime - rv.mtime
        ∧ e.mtime - rv.mtime ≤ TIMESTAMP_TOLERANCE := by
    intro q e hq hqs hDq
    rw [hDeq] at hDq
    rcases foldl_download_local_char _ _ _ _ _ _ hq hDq with hctx | ⟨pr, hpr, hk, he⟩
    · dsimp only at hctx
      rw [foldl_mkdirp_statFile, hUlq q hqs] at hctx
      have horq : ∃ e0 : Entry, lf1.statFile q = some e0 := by
        rw [hWdef] at hctx
        rcases foldl_upload_local_or tR ts lf1.files ⟨lf1, rem0, [], [], []⟩ q with hh | hh
        · rw [hh] at hctx
          exact ⟨e, hctx⟩
        · rw [hh] at hctx
          rcases Option.map_eq_some'.mp hctx with ⟨e0, he0, _⟩
          exact ⟨e0, he0⟩
      obtain ⟨e0, he0⟩ := horq
      have hmem0 : (q, e0) ∈ lf1.files := mem_of_statFile lf1 q e0 he0
      obtain ⟨ev, rv, hl, hr, hb1, hb2⟩ := hF5 (q, e0) hmem0 hq
      have hev : ev = e := by
        rw [hctx] at hl
        exact (Option.some_inj.mp hl).symm
      have hkq : q ∈ (uploadWalk lf1 rem0 tR ts).localPaths :=
        hmemLP q hq (List.mem_map.mpr ⟨(q, e0), hmem0, rfl⟩)
      rw [hev] at hb1 hb2
      refine ⟨rv, ?_, hb1, hb2⟩
      rw [hUrLP q hkq]
      exact hr
    · have hmem2 : (q, pr.2) ∈ U.remote.files := by
        rw [← hk]
        exact hpr
      have hq2 : U.remote.statFile q = some pr.2 :=
        statFile_of_mem_nodup _ _ _ hndR2 hmem2
      refine ⟨pr.2, hq2, ?_, ?_⟩
      · rw [he]
        show -TIMESTAMP_TOLERANCE ≤ pr.2.mtime - pr.2.mtime
        rw [hT]
        omega
      · rw [he]
        show pr.2.mtime - pr.2.mtime ≤ TIMESTAMP_TOLERANCE
        rw [hT]
        omega
  have hM5 : ∀ q, hasConflictMarker q = false → q ∈ U.remote.files.map (fun x => x.1) →
      (D.localFS.statFile q).isSome = true := by
    intro q hq hmem
    rcases List.mem_map.mp hmem with ⟨a, ha, hkey⟩
    have hmem2 : (q, a.2) ∈ U.remote.files := by
      rw [← hkey]
      exact ha
    rw [hDeq]
    exact foldl_download_isSome_of_mem ts tArt U.remote.files _ q a.2 hq hmem2
  have hndD : ((D.localFS.files.map (fun x => x.1))).Nodup := by
    rw [hDeq]
    apply foldl_download_nodup
    dsimp only
    rw [foldl_mkdirp_files, hUl]
    unfold saveSyncState
    apply nodup_keys_writeFile
    rw [files_rootTrue, hWdef, foldl_upload_local_keys]
    exact hnd
  exact ⟨hM1, hM3, hM4, hM5, hndD, hndR2⟩

/-- A cycle run on a converged pair (the postconditions of `cyclePass_post`)
performs no downloads, no local deletions, has empty remote-origin and
local-origin file deletion candidate sets, and uploads at most the ledger
file itself. -/
theorem secondPass_quiescent (lfA remA : FS) (LP : List String) (p : CycleParams)
    (hM1 : ∀ q e, hasConflictMarker q = false → q ≠ stateFileName →
        lfA.statFile q = some e →
        ∃ rv, remA.statFile q = some rv
          ∧ -TIMESTAMP_TOLERANCE ≤ e.mtime - rv.mtime
          ∧ e.mtime - rv.mtime ≤ TIMESTAMP_TOLERANCE)
    (hM3 : loadSyncState lfA = ⟨LP⟩)
    (hM4 : ∀ k ∈ LP, (lfA.statFile k).isSome = true ∧ (remA.statFile k).isSome = true)
    (hM5 : ∀ q, hasConflictMarker q = false → q ∈ remA.files.map (fun x => x.1) →
        (lfA.statFile q).isSome = true)
    (hndA : (lfA.files.map (fun x => x.1)).Nodup)
    (hLPm : ∀ k ∈ LP, hasConflictMarker k = false) :
    (∀ q ∈ (performSyncCycle ⟨lfA, remA⟩ p).2.uploads, q = stateFileName)
    ∧ (performSyncCycle ⟨lfA, remA⟩ p).2.downloads = []
    ∧ (performSyncCycle ⟨lfA, remA⟩ p).2.candRemoteFiles = []
    ∧ (performSyncCycle ⟨lfA, remA⟩ p).2.toDeleteRemote = []
    ∧ (performSyncCycle ⟨lfA, remA⟩ p).2.deletedLocalFiles = [] := by
  have hcf : remoteDelFileCands lfA remA = [] := by
    unfold remoteDelFileCands
    rw [hM3]
    dsimp only
    apply List.filter_eq_nil_iff.mpr
    intro k hk
    have hrem := (hM4 k hk).2
    have hmemkeys : k ∈ remA.files.map (fun x => x.1) :=
      key_mem_of_statFile_isSome _ _ hrem
    have hct : (collectRemoteTree remA).1.contains k = true := by
      apply contains_true_of_mem
      unfold collectRemoteTree
      dsimp only
      exact List.mem_filter.mpr ⟨hmemkeys, by simp [hLPm k hk]⟩
    rw [hct]
    simp
  set R2 := reconcileRemoteDeletions lfA remA none p.answerRemote p.tSaveR with hR2
  have hr2stat : ∀ q, q ≠ stateFileName → R2.localFS.statFile q = lfA.statFile q :=
    fun q hq => reconcile_statFile_nodel lfA remA none p.answerRemote p.tSaveR q hq hcf
  have hr2load : loadSyncState R2.localFS = (⟨LP⟩ : SyncState) :=
    (reconcile_loadSyncState_nodel lfA remA none p.answerRemote p.tSaveR hcf).trans hM3
  have hnd2 : (R2.localFS.files.map (fun x => x.1)).Nodup :=
    reconcile_nodup lfA remA none p.answerRemote p.tSaveR hndA
  have hr2some : ∀ k, (lfA.statFile k).isSome = true →
      (R2.localFS.statFile k).isSome = true := by
    intro k hk
    by_cases hks : k = stateFileName
    · subst hks
      exact reconcile_state_isSome_nodel lfA remA none p.answerRemote p.tSaveR hcf hk
    · rw [hr2stat k hks]
      exact hk
  have hW2def : uploadWalk R2.localFS remA p.tRemote p.tsArt
      = R2.localFS.files.foldl (uploadStep p.tRemote p.tsArt)
          ⟨R2.localFS, remA, [], [], []⟩ := rfl
  have hLP2 : (uploadWalk R2.localFS remA p.tRemote p.tsArt).localPaths
      = (R2.localFS.files.map (fun q => q.1)).filter (fun x => !hasConflictMarker x) := by
    rw [hW2def, foldl_uploadStep_localPaths]
    dsimp only
    rw [List.nil_append]
  have hinLP2 : ∀ k ∈ LP,
      k ∈ (uploadWalk R2.localFS remA p.tRemote p.tsArt).localPaths := by
    intro k hk
    have hsome : (R2.localFS.statFile k).isSome = true := hr2some k (hM4 k hk).1
    have hkeys := key_mem_of_statFile_isSome _ _ hsome
    rw [hLP2]
    exact List.mem_filter.mpr ⟨hkeys, by simp [hLPm k hk]⟩
  have hld2 : localDelCands R2.localFS remA p.tRemote p.tsArt = [] := by
    unfold localDelCands
    rw [hr2load]
    dsimp only
    apply List.filter_eq_nil_iff.mpr
    intro k hk
    rw [contains_true_of_mem (hinLP2 k hk)]
    simp
  have hpost2 := uploadFold_post p.tRemote p.tsArt remA R2.localFS.files
      ⟨R2.localFS, remA, [], [], []⟩ hnd2
      (fun pe hpe _ => ⟨statFile_of_mem_nodup _ pe.1 pe.2 hnd2 hpe, rfl⟩)
      (fun pe _ => List.not_mem_nil pe.1)
  have hAsome : ∀ q, (R2.localFS.statFile q).isSome = true →
      ((saveSyncState (uploadWalk R2.localFS remA p.tRemote p.tsArt).localFS
          (uploadWalk R2.localFS remA p.tRemote p.tsArt).localPaths p.tSaveU).statFile
        q).isSome = true := by
    intro q hq
    unfold saveSyncState
    apply statFile_isSome_writeFile
    rw [statFile_rootTrue]
    apply statFile_isSome_of_key_mem
    rw [show (uploadWalk R2.localFS remA p.tRemote p.tsArt).localFS.files.map (fun x => x.1)
        = R2.localFS.files.map (fun x => x.1) from
      foldl_upload_local_keys p.tRemote p.tsArt R2.localFS.files ⟨R2.localFS, remA, [], [], []⟩]
    exact key_mem_of_statFile_isSome _ _ hq
  refine ⟨?_, ?_, ?_, ?_, ?_⟩
  · intro q hq
    have hq' : q ∈ (uploadWalk R2.localFS remA p.tRemote p.tsArt).uploads := by
      rw [← fullUpload_uploads_eq R2.localFS remA p.answerLocal p.tRemote p.tSaveU p.tsArt]
      exact hq
    by_contra hne
    rcases foldl_upload_uploads_keys p.tRemote p.tsArt R2.localFS.files
        ⟨R2.localFS, remA, [], [], []⟩ q hq' with h | ⟨pe, hpe, hkey, hm⟩
    · exact List.not_mem_nil q h
    · have hm' : hasConflictMarker pe.1 = false := by
        rw [hkey]
        exact hm
      have hqs : pe.1 ≠ stateFileName := by
        rw [hkey]
        exact hne
      have hstat2 : R2.localFS.statFile pe.1 = some pe.2 :=
        statFile_of_mem_nodup _ _ _ hnd2 hpe
      have hstatA : lfA.statFile pe.1 = some pe.2 := by
        rw [← hr2stat pe.1 hqs]
        exact hstat2
      obtain ⟨rv, hrv, hb1, hb2⟩ := hM1 pe.1 pe.2 hm' hqs hstatA
      have hfin := (hpost2 pe hpe hm').1 rv hrv hb1 hb2
      apply hfin.2.2
      rw [hkey]
      exact hq'
  · show (fullDownload
        (fullUpload R2.localFS remA p.answerLocal p.tRemote p.tSaveU p.tsArt).localFS
        (fullUpload R2.localFS remA p.answerLocal p.tRemote p.tSaveU p.tsArt).remote
        p.tsArt p.tArt).downloads = []
    rw [fullUpload_nodel_eq R2.localFS remA p.answerLocal p.tRemote p.tSaveU p.tsArt hld2]
    dsimp only
    have hpres : ∀ pr ∈ (uploadWalk R2.localFS remA p.tRemote p.tsArt).remote.files,
        hasConflictMarker pr.1 = false →
        ((((uploadWalk R2.localFS remA p.tRemote p.tsArt).remote.dirs.filter
              (fun d => !hasConflictMarker d)).foldl (fun fs d => fs.mkdirp d)
            (saveSyncState (uploadWalk R2.localFS remA p.tRemote p.tsArt).localFS
              (uploadWalk R2.localFS remA p.tRemote p.tsArt).localPaths
              p.tSaveU)).statFile pr.1).isSome = true := by
      intro pr hpr hm
      rw [foldl_mkdirp_statFile]
      apply hAsome
      have hkeymem : pr.1 ∈ (uploadWalk R2.localFS remA p.tRemote
          p.tsArt).remote.files.map (fun x => x.1) :=
        List.mem_map.mpr ⟨pr, hpr, rfl⟩
      rcases foldl_upload_remote_keys p.tRemote p.tsArt R2.localFS.files
          ⟨R2.localFS, remA, [], [], []⟩ pr.1 hkeymem with h | ⟨pe, hpe, hkey⟩ | h
      · exact hr2some pr.1 (hM5 pr.1 hm h)
      · rw [← hkey]
        apply statFile_isSome_of_key_mem
        exact List.mem_map.mpr ⟨pe, hpe, rfl⟩
      · rw [hm] at h
        cases h
    exact foldl_download_downloads_nil p.tsArt p.tArt _ _ hpres
  · show (reconcileRemoteDeletions lfA remA none p.answerRemote p.tSaveR).candFiles = []
    rcases reconcile_candFiles_cases lfA remA none p.answerRemote p.tSaveR with h | h
    · exact h
    · rw [h, hcf]
  · show (fullUpload R2.localFS remA p.answerLocal p.tRemote p.tSaveU p.tsArt).toDelete = []
    rw [fullUpload_toDelete_eq]
    exact hld2
  · show (reconcileRemoteDeletions lfA remA none p.answerRemote p.tSaveR).deletedFiles = []
    rcases reconcile_deletedFiles_cases lfA remA none p.answerRemote p.tSaveR with h | h
    · exact h
    · rw [h, hcf]

/-- C4 counterexample: on the empty world the first cycle creates the
durable ledger file *inside* the sync root; the second cycle's local walk
finds it, sees no remote counterpart, and uploads it — so the second of
two back-to-back cycles with no intervening mutation does perform an
upload, refuting "no uploads, downloads, or deletions on the second
cycle". -/
theorem C4_counterexample :
    (performSyncCycle (performSyncCycle ⟨⟨true, [], []⟩, ⟨true, [], []⟩⟩
        ⟨true, true, 100, 90, 110, 120, "T1"⟩).1
      ⟨true, true, 200, 190, 210, 220, "T2"⟩).2.uploads = [stateFileName] := by
  decide

/-- C4 (corrected): after one consenting cycle, a second cycle with no
intervening local or remote mutation performs no downloads, deletes no
local file, and has empty remote-origin and local-origin *file* deletion
candidate sets; but the cycle is not fully quiescent — the ledger file,
which lives inside the sync root and is rewritten with a fresh mtime at
the end of every upload phase, is itself walked and may be re-uploaded,
so the second cycle's upload set is only guaranteed to contain nothing
*but* the ledger path (and `C4_counterexample` shows it need not be
empty). -/
theorem C4_second_cycle_quiescent (w : World) (p1 p2 : CycleParams)
    (hnd : (w.localFS.files.map (fun x => x.1)).Nodup)
    (hndR : (w.remote.files.map (fun x => x.1)).Nodup)
    (hans : p1.answerLocal = true) :
    (∀ q ∈ (performSyncCycle (performSyncCycle w p1).1 p2).2.uploads, q = stateFileName)
    ∧ (performSyncCycle (performSyncCycle w p1).1 p2).2.downloads = []
    ∧ (performSyncCycle (performSyncCycle w p1).1 p2).2.candRemoteFiles = []
    ∧ (performSyncCycle (performSyncCycle w p1).1 p2).2.toDeleteRemote = []
    ∧ (performSyncCycle (performSyncCycle w p1).1 p2).2.deletedLocalFiles = [] := by
  set R1 := reconcileRemoteDeletions w.localFS w.remote none p1.answerRemote p1.tSaveR
    with hR1
  have hw1 : (performSyncCycle w p1).1
      = ⟨(fullDownload
            (fullUpload R1.localFS w.remote true p1.tRemote p1.tSaveU p1.tsArt).localFS
            (fullUpload R1.localFS w.remote true p1.tRemote p1.tSaveU p1.tsArt).remote
            p1.tsArt p1.tArt).localFS,
         (fullUpload R1.localFS w.remote true p1.tRemote p1.tSaveU p1.tsArt).remote⟩ := by
    have h0 : (performSyncCycle w p1).1
        = ⟨(fullDownload
              (fullUpload R1.localFS w.remote p1.answerLocal p1.tRemote p1.tSaveU
                p1.tsArt).localFS
              (fullUpload R1.localFS w.remote p1.answerLocal p1.tRemote p1.tSaveU
                p1.tsArt).remote
              p1.tsArt p1.tArt).localFS,
           (fullUpload R1.localFS w.remote p1.answerLocal p1.tRemote p1.tSaveU
             p1.tsArt).remote⟩ := rfl
    rw [hans] at h0
    exact h0
  obtain ⟨hM1, hM3, hM4, hM5, hndD, hndR2⟩ :=
    cyclePass_post R1.localFS w.remote p1.tRemote p1.tSaveU p1.tArt p1.tsArt
      (fullUpload R1.localFS w.remote true p1.tRemote p1.tSaveU p1.tsArt)
      (fullDownload
        (fullUpload R1.localFS w.remote true p1.tRemote p1.tSaveU p1.tsArt).localFS
        (fullUpload R1.localFS w.remote true p1.tRemote p1.tSaveU p1.tsArt).remote
        p1.tsArt p1.tArt)
      rfl rfl (reconcile_nodup _ _ _ _ _ hnd) hndR
  have hLPm : ∀ k ∈ (uploadWalk R1.localFS w.remote p1.tRemote p1.tsArt).localPaths,
      hasConflictMarker k = false := by
    intro k hk
    by_cases hm : hasConflictMarker k
    · exact absurd hk (not_mem_uploadWalk_localPaths_marker _ _ _ _ _ hm)
    · simpa using hm
  rw [hw1]
  exact secondPass_quiescent _ _ _ p2 hM1 hM3 hM4 hM5 hndD hLPm

/-- Witness for C4: a concrete world with one local file; after the first
cycle the second cycle downloads nothing. -/
theorem C4_second_cycle_quiescent_witness :
    (((⟨⟨true, [("a.txt", ⟨50, FileData.bytes 1⟩)], []⟩, ⟨true, [], []⟩⟩ :
        World).localFS.files.map (fun x => x.1)).Nodup)
    ∧ (performSyncCycle
        (performSyncCycle ⟨⟨true, [("a.txt", ⟨50, FileData.bytes 1⟩)], []⟩, ⟨true, [], []⟩⟩
          ⟨true, true, 100, 90, 110, 120, "T1"⟩).1
        ⟨true, true, 200, 190, 210, 220, "T2"⟩).2.downloads = [] :=
  ⟨by decide,
   (C4_second_cycle_quiescent
      ⟨⟨true, [("a.txt", ⟨50, FileData.bytes 1⟩)], []⟩, ⟨true, [], []⟩⟩
      ⟨true, true, 100, 90, 110, 120, "T1"⟩ ⟨true, true, 200, 190, 210, 220, "T2"⟩
      (by decide) (by decide) rfl).2.1⟩

end LifeSync
